import Mathlib

/-!
Verification of the referral-network library (`src/main.py`).

The Python program is shallowly embedded as follows.

* `ReferralNetwork` mirrors the class of the same name: the dict
  `_parents` becomes an association list `parents : List (String × String)`
  (candidate ↦ referrer), the defaultdict-of-sets `_children` becomes an
  association list `children : List (String × List String)` whose value
  lists are duplicate-free, and the set `_nodes` becomes a duplicate-free
  `List String`.  Python dict lookup is `lookupKey` (first match).
* The unbounded `while` loops of the Python source (the ancestor walk in
  `_check_constraints` / `all_ancestors`, the stack loop in
  `all_referrals`, and the two loops of `min_bonus_for_target`) are
  embedded with explicit fuel.  For the graph walks the fuel
  `parents.length` is provably sufficient on every state reachable by
  `add_referral`, so on those states the embedding computes exactly what
  the Python loop computes.  For the search loops the fuel is quantified:
  the Python call terminates with result `r` iff some fuel yields `r`.
* Python floats are embedded as rationals; on the inputs the claims are
  about (halves and small multiples of 1/10) the Python float arithmetic
  is exact, and the numeric spec claims carry explicit tolerances.
* `raise ReferralError` becomes an `Except RefError` result; a caller
  that catches the error observes the unchanged state (`addReferralOrKeep`),
  exactly as in Python where the mutation statements run only after
  `_check_constraints` returns.
-/

/-- dict lookup: first binding of the key in the association list
(models Python `d[k]` / `d.get(k)`). -/
def lookupKey {α : Type} : List (String × α) → String → Option α
  | [], _ => none
  | (k, v) :: t, x => if k = x then some v else lookupKey t x

/-- set add for a list kept duplicate-free (models Python `set.add`). -/
def setAdd (l : List String) (x : String) : List String :=
  if x ∈ l then l else l ++ [x]

/-- models `self._children[referrer].add(candidate)` on the defaultdict:
the entry is created if absent, and the candidate is added to its set. -/
def childAdd : List (String × List String) → String → String → List (String × List String)
  | [], r, c => [(r, [c])]
  | (k, l) :: t, r, c =>
    if k = r then (k, setAdd l c) :: t else (k, l) :: childAdd t r c

/-- The `ReferralNetwork` class state: `_parents`, `_children`, `_nodes`. -/
structure ReferralNetwork where
  parents : List (String × String)
  children : List (String × List String)
  nodes : List String
deriving DecidableEq

/-- the empty network built by `ReferralNetwork.__init__`. -/
def ReferralNetwork.init : ReferralNetwork := ⟨[], [], []⟩

/-- models `self._children.get(user, set())` as a value (the list of
direct referrals; aliasing of the returned object is modelled separately). -/
def childrenOf (g : ReferralNetwork) (user : String) : List String :=
  (lookupKey g.children user).getD []

/-- the ancestor walk `while current in self._parents: current = self._parents[current]`,
with explicit fuel; it returns the ancestors in walk order. -/
def walkParents (ps : List (String × String)) : Nat → String → List String
  | 0, _ => []
  | fuel + 1, cur =>
    match lookupKey ps cur with
    | none => []
    | some par => par :: walkParents ps fuel par

/-- `all_ancestors`: walk `parent` pointers from the user to the root.
Fuel `parents.length` is sufficient on every acyclic state (proved below),
so on reachable states this is exactly the Python loop's result. -/
def all_ancestors (g : ReferralNetwork) (user : String) : List String :=
  walkParents g.parents g.parents.length user

/-- the error raised by `_check_constraints`, with its three messages. -/
inductive RefError where
  | selfReferral
  | duplicateReferrer
  | cycle
deriving DecidableEq

/-- models `_check_constraints`: the three checks in source order; the
cycle check walks the parents chain from the referrer and fails if the
candidate appears on it. -/
def check_constraints (g : ReferralNetwork) (referrer candidate : String) :
    Option RefError :=
  if referrer = candidate then some .selfReferral
  else if (lookupKey g.parents candidate).isSome then some .duplicateReferrer
  else if candidate ∈ walkParents g.parents g.parents.length referrer then some .cycle
  else none

/-- models `add_referral`: check the constraints, then record the edge in
both indices and add both endpoints to `nodes`. -/
def add_referral (g : ReferralNetwork) (referrer candidate : String) :
    Except RefError ReferralNetwork :=
  match check_constraints g referrer candidate with
  | some e => .error e
  | none =>
      .ok { parents := (candidate, referrer) :: g.parents
          , children := childAdd g.children referrer candidate
          , nodes := setAdd (setAdd g.nodes referrer) candidate }

/-- a call to `add_referral` whose error, if any, is caught by the caller:
on failure the state is the unchanged receiver (in Python no mutation
statement has run when `_check_constraints` raises). -/
def addReferralOrKeep (g : ReferralNetwork) (referrer candidate : String) :
    ReferralNetwork :=
  match add_referral g referrer candidate with
  | .ok g' => g'
  | .error _ => g

/-- the state after a finite sequence of (caught) `add_referral` calls,
starting from the empty network. -/
def buildNetwork (ops : List (String × String)) : ReferralNetwork :=
  ops.foldl (fun g rc => addReferralOrKeep g rc.1 rc.2) ReferralNetwork.init

/-- a state is reachable when some sequence of `add_referral` calls
(each one either succeeding or raising) produces it. -/
def Reachable (g : ReferralNetwork) : Prop :=
  ∃ ops : List (String × String), buildNetwork ops = g

/-- `direct_referrals`: the value of `self._children.get(user, set())`. -/
def direct_referrals (g : ReferralNetwork) (user : String) : List String :=
  childrenOf g user

/-- the DFS stack loop of `all_referrals`, with explicit fuel: pop a node,
append it to the result, push its children. -/
def dfsAux (ch : List (String × List String)) :
    Nat → List String → List String → List String
  | 0, _, result => result
  | _ + 1, [], result => result
  | fuel + 1, node :: stack, result =>
      dfsAux ch fuel ((lookupKey ch node).getD [] ++ stack) (result ++ [node])

/-- `all_referrals`: DFS through `children` collecting all strict
descendants.  Fuel `parents.length` is sufficient on every reachable
state (proved below), where the number of loop iterations equals the
number of strict descendants, which is at most the number of edges. -/
def all_referrals (g : ReferralNetwork) (user : String) : List String :=
  dfsAux g.children g.parents.length (childrenOf g user) []

/-- `get_all_nodes`: the value of `self._nodes.copy()`. -/
def get_all_nodes (g : ReferralNetwork) : List String :=
  g.nodes

/-- the flow-centrality score computed inside `top_k_by_flow_centrality`:
`len(network.all_ancestors(user)) * len(list(network.all_referrals(user)))`. -/
def flowCentrality (g : ReferralNetwork) (user : String) : Nat :=
  (all_ancestors g user).length * (all_referrals g user).length

/-- one step of the edge relation, in edge direction: `DStep g x y` holds
when the referral edge x → y is present, i.e. y's recorded referrer is x. -/
def DStep (g : ReferralNetwork) (x y : String) : Prop :=
  lookupKey g.parents y = some x

/-- y is a strict descendant of x (equivalently x a strict ancestor of y):
a directed path of length at least one from x to y. -/
def StrictDesc (g : ReferralNetwork) (x y : String) : Prop :=
  Relation.TransGen (DStep g) x y

/-- y is reachable from x along edges (possibly by the empty path);
`Reaches g s u ∧ Reaches g u t` says u lies on a directed path from s to t. -/
def Reaches (g : ReferralNetwork) (x y : String) : Prop :=
  Relation.ReflTransGen (DStep g) x y

/-! ## Part 3: Growth (`expected_network_size`)

The 11-element Python list `capacity` (indices 0..10) is embedded as a
structure with one rational field per index; the two literal-bound
`for c in range(1, 11)` loops of `_rebuild_capacity` are unrolled. -/

/-- the `capacity` list: `cap.c n` is `capacity[n]`, the expected count of
referrers with remaining capacity n (index 0 = inactive). -/
structure Capacity where
  c0 : ℚ
  c1 : ℚ
  c2 : ℚ
  c3 : ℚ
  c4 : ℚ
  c5 : ℚ
  c6 : ℚ
  c7 : ℚ
  c8 : ℚ
  c9 : ℚ
  c10 : ℚ
deriving DecidableEq

/-- `sum(capacity[1:11])`: the expected number of active referrers. -/
def activeMass (v : Capacity) : ℚ :=
  v.c1 + v.c2 + v.c3 + v.c4 + v.c5 + v.c6 + v.c7 + v.c8 + v.c9 + v.c10

/-- `_rebuild_capacity`: each level c in 1..10 contributes `capacity[c]*(1-p)`
to level c and `capacity[c]*p` to level c-1; the day's successes enter
bucket 10.  (Bucket 0 of the old vector is not carried over, exactly as in
the source, where the loop starts at c = 1.) -/
def rebuildCapacity (p : ℚ) (v : Capacity) (daySuccesses : ℚ) : Capacity where
  c0 := v.c1 * p
  c1 := v.c1 * (1 - p) + v.c2 * p
  c2 := v.c2 * (1 - p) + v.c3 * p
  c3 := v.c3 * (1 - p) + v.c4 * p
  c4 := v.c4 * (1 - p) + v.c5 * p
  c5 := v.c5 * (1 - p) + v.c6 * p
  c6 := v.c6 * (1 - p) + v.c7 * p
  c7 := v.c7 * (1 - p) + v.c8 * p
  c8 := v.c8 * (1 - p) + v.c9 * p
  c9 := v.c9 * (1 - p) + v.c10 * p
  c10 := v.c10 * (1 - p) + daySuccesses

/-- the initial vector: 100 referrers at capacity 10, all other buckets 0. -/
def initialCapacity : Capacity := ⟨0, 0, 0, 0, 0, 0, 0, 0, 0, 0, 100⟩

/-- one iteration of the daily loop: compute the day's expected successes,
accumulate them, and rebuild the capacity vector. -/
def simStep (p : ℚ) (st : Capacity × ℚ) : Capacity × ℚ :=
  (rebuildCapacity p st.1 (activeMass st.1 * p), st.2 + activeMass st.1 * p)

/-- the `for _ in range(n)` loop driving `simStep`. -/
def simRun (p : ℚ) : Nat → Capacity × ℚ → Capacity × ℚ
  | 0, st => st
  | n + 1, st => simRun p n (simStep p st)

/-- `expected_network_size(p, days)`: run the daily loop days+1 times from
the initial vector and return 100 plus the accumulated successes. -/
def expected_network_size (p : ℚ) (days : Nat) : ℚ :=
  100 + (simRun p (days + 1) (initialCapacity, 0)).2

/-! ## Part 4: Incentive optimisation (`min_bonus_for_target`) -/

/-- BONUS_INCREMENT = 10. -/
def BONUS_INCREMENT : ℤ := 10

/-- Python `round` on the exactly-representable values arising here:
round half to even.  `(low + high) / 2 / 10` with low and high multiples
of ten is an integer or a half-integer, both exact in double precision,
so the float computation agrees with this rational one. -/
def pythonRound (x : ℚ) : ℤ :=
  if Int.fract x < 1 / 2 then ⌊x⌋
  else if 1 / 2 < Int.fract x then ⌊x⌋ + 1
  else if ⌊x⌋ % 2 = 0 then ⌊x⌋ else ⌊x⌋ + 1

/-- `reaches_target(bonus)`: the simulated size at probability
`adoption_prob(bonus)` meets the target. -/
def reachesTarget (days : Nat) (target : ℚ) (ap : ℤ → ℚ) (bonus : ℤ) : Prop :=
  target ≤ expected_network_size (ap bonus) days

instance (days : Nat) (target : ℚ) (ap : ℤ → ℚ) (bonus : ℤ) :
    Decidable (reachesTarget days target ap bonus) := by
  unfold reachesTarget; infer_instance

/-- Phase 1 (exponential search), with fuel: `none` means the loop has not
exited within the given fuel; `some none` models `return None`;
`some (some (low, high))` is the state passed to phase 2. -/
def phase1 (days : Nat) (target : ℚ) (ap : ℤ → ℚ) :
    Nat → ℤ → ℤ → Option (Option (ℤ × ℤ))
  | 0, _, _ => none
  | fuel + 1, low, high =>
    if reachesTarget days target ap high then some (some (low, high))
    else if 1 ≤ ap high then some none
    else phase1 days target ap fuel high (2 * high)

/-- Phase 2 (binary search), with fuel: while the gap is at least one
increment, probe `round((low + high) / 2 / 10) * 10`; `none` means the
loop has not exited within the given fuel. -/
def phase2 (days : Nat) (target : ℚ) (ap : ℤ → ℚ) :
    Nat → ℤ → ℤ → Option ℤ
  | 0, _, _ => none
  | fuel + 1, low, high =>
    if low + BONUS_INCREMENT ≤ high then
      let mid := pythonRound (((low : ℚ) + (high : ℚ)) / 2 / 10) * BONUS_INCREMENT
      if reachesTarget days target ap mid then phase2 days target ap fuel low mid
      else phase2 days target ap fuel (mid + BONUS_INCREMENT) high
    else some low

/-- `min_bonus_for_target`, with fuel: `none` means the call has not
returned within the given fuel; `some none` models the Python result
`None`; `some (some b)` models the Python result `b`. -/
def min_bonus_for_target (fuel : Nat) (days : Nat) (target : ℚ) (ap : ℤ → ℚ)
    (initial_high : ℤ) : Option (Option ℤ) :=
  match phase1 days target ap fuel 0 initial_high with
  | none => none
  | some none => some none
  | some (some (low, high)) => (phase2 days target ap fuel low high).map some

/-- the Python call terminates (with either a bonus or `None`). -/
def MinBonusTerminates (days : Nat) (target : ℚ) (ap : ℤ → ℚ)
    (initial_high : ℤ) : Prop :=
  ∃ fuel, (min_bonus_for_target fuel days target ap initial_high).isSome

/-- the Python call returns `None`. -/
def ReturnsNone (days : Nat) (target : ℚ) (ap : ℤ → ℚ)
    (initial_high : ℤ) : Prop :=
  ∃ fuel, min_bonus_for_target fuel days target ap initial_high = some none

/-- the Python call returns the integer b. -/
def ReturnsBonus (days : Nat) (target : ℚ) (ap : ℤ → ℚ)
    (initial_high : ℤ) (b : ℤ) : Prop :=
  ∃ fuel, min_bonus_for_target fuel days target ap initial_high = some (some b)

/-! ## Auxiliary notions used by the proofs -/

/-- one upward step: y is x's recorded referrer. -/
def UpStep (ps : List (String × String)) (x y : String) : Prop :=
  lookupKey ps x = some y

/-- the parents map is acyclic: no user is its own strict ancestor. -/
def AcyclicParents (ps : List (String × String)) : Prop :=
  ∀ u, ¬ Relation.TransGen (UpStep ps) u u

/-- the last element of a walk, defaulting to the start. -/
def lastOf (a : String) (l : List String) : String :=
  l.getLastD a

/-- the well-formedness facts maintained by every `add_referral` call. -/
structure WF (g : ReferralNetwork) : Prop where
  pkNodup : (g.parents.map Prod.fst).Nodup
  ckNodup : (g.children.map Prod.fst).Nodup
  cvNodup : ∀ q ∈ g.children, (Prod.snd q).Nodup
  cvNe : ∀ q ∈ g.children, Prod.snd q ≠ []
  consist : ∀ r c, c ∈ childrenOf g r ↔ lookupKey g.parents c = some r
  acyclic : AcyclicParents g.parents
  noSelf : ∀ c r, lookupKey g.parents c = some r → c ≠ r
  pdomNodes : ∀ c r, lookupKey g.parents c = some r → c ∈ g.nodes
  prngNodes : ∀ c r, lookupKey g.parents c = some r → r ∈ g.nodes
  cdomNodes : ∀ r, (lookupKey g.children r).isSome → r ∈ g.nodes
  nodesNodup : g.nodes.Nodup

/-- `l` is the parents chain starting at `a`: each element is the recorded
referrer of the one before it. -/
def ParentChain (ps : List (String × String)) : String → List String → Prop
  | _, [] => True
  | a, b :: l => lookupKey ps a = some b ∧ ParentChain ps b l

/-- the node n together with its strict descendants, as a finite set
(descendants are collected from `nodes` by the decidable upward-walk test). -/
def DstarSet (g : ReferralNetwork) (n : String) : Finset String :=
  insert n ((g.nodes.toFinset).filter
    (fun v => n ∈ walkParents g.parents g.parents.length v))

/-- the union of the pending subtrees of a DFS stack. -/
def stackSet (g : ReferralNetwork) (stack : List String) : Finset String :=
  stack.foldr (fun n s => DstarSet g n ∪ s) ∅

/-! ## The aliasing model for the returned collections (C9)

In Python, `self._children.get(user, set())` returns the stored set
object itself whenever `user` is a key of `_children` (only when the key
is absent is the fresh default returned), while `self._nodes.copy()`
always returns a fresh set.  A caller that mutates (say, clears) the
returned collection therefore mutates the internal `_children` entry in
the first case and nothing in the second.  The two definitions below
embed the graph state observed after such a caller mutation. -/

/-- empty the stored set of the given key, if present (Python `set.clear()`
applied to the stored object). -/
def clearEntry : List (String × List String) → String → List (String × List String)
  | [], _ => []
  | (k, l) :: t, u => if k = u then (k, []) :: t else (k, l) :: clearEntry t u

/-- the graph state after `s = g.direct_referrals(user); s.clear()`:
`dict.get` hands out the live stored set when the key is present, so the
clear empties the internal entry; otherwise only the fresh default dies. -/
def stateAfterClearingDirectReferrals (g : ReferralNetwork) (user : String) :
    ReferralNetwork :=
  if (lookupKey g.children user).isSome then
    { g with children := clearEntry g.children user }
  else g

/-- the graph state after `s = g.get_all_nodes(); s.clear()`: the method
returns `self._nodes.copy()`, a fresh object, so the internal state is
untouched. -/
def stateAfterClearingAllNodes (g : ReferralNetwork) : ReferralNetwork :=
  g

/-! ## The growth recurrence as worded in the specification (C6)

The specification describes the same daily recurrence but speaks of
redistributing the mass of every capacity level of the 11-bucket vector;
in particular the inactive bucket 0 keeps its accumulated mass (a
referrer at level 0 stays at level 0), whereas the code's rebuild loop
starts at level 1 and so drops the stored bucket-0 mass each day.  The
two disagree only in that unread bucket, which the refinement theorem
proves. -/

/-- the specification's redistribution: levels 1..10 stay with
probability 1-p or drop one level with probability p, level 0 persists,
and the day's successes enter bucket 10. -/
def specRebuild (p : ℚ) (v : Capacity) (daySuccesses : ℚ) : Capacity where
  c0 := v.c0 + v.c1 * p
  c1 := v.c1 * (1 - p) + v.c2 * p
  c2 := v.c2 * (1 - p) + v.c3 * p
  c3 := v.c3 * (1 - p) + v.c4 * p
  c4 := v.c4 * (1 - p) + v.c5 * p
  c5 := v.c5 * (1 - p) + v.c6 * p
  c6 := v.c6 * (1 - p) + v.c7 * p
  c7 := v.c7 * (1 - p) + v.c8 * p
  c8 := v.c8 * (1 - p) + v.c9 * p
  c9 := v.c9 * (1 - p) + v.c10 * p
  c10 := v.c10 * (1 - p) + daySuccesses

/-- one day of the specification's recurrence: successes today are
p times the expected count at levels 1..10; they are totalled and the
vector redistributed. -/
def specStep (p : ℚ) (st : Capacity × ℚ) : Capacity × ℚ :=
  (specRebuild p st.1 (activeMass st.1 * p), st.2 + activeMass st.1 * p)

/-- the specification's day loop. -/
def specRun (p : ℚ) : Nat → Capacity × ℚ → Capacity × ℚ
  | 0, st => st
  | n + 1, st => specRun p n (specStep p st)

/-- the reference expectation recurrence exactly as the specification
words it: day 0 through day `days` inclusive, starting from 100
referrers at capacity 10; the result is 100 plus the cumulative expected
successes. -/
def specExpectedNetworkSize (p : ℚ) (days : Nat) : ℚ :=
  100 + (specRun p (days + 1) (initialCapacity, 0)).2

/-- a monotone adoption oracle into [0,1] on which the binary-search
phase stalls: probability 0 below 10 dollars, 1/2 at 10..19, 1 from 20. -/
def stallAp : ℤ → ℚ :=
  fun b => if 20 ≤ b then 1 else if 10 ≤ b then 1/2 else 0

/-! ## Concrete networks used as witnesses -/

/-- the chain A → B → C → D used by the spec's examples. -/
def chainOps : List (String × String) :=
  [("A", "B"), ("B", "C"), ("C", "D")]

/-- the chain A → B → C → D → E used by the flow-centrality example. -/
def chain5Ops : List (String × String) :=
  [("A", "B"), ("B", "C"), ("C", "D"), ("D", "E")]

/-- every bucket of the capacity vector is non-negative. -/
def NonnegCap (v : Capacity) : Prop :=
  0 ≤ v.c0 ∧ 0 ≤ v.c1 ∧ 0 ≤ v.c2 ∧ 0 ≤ v.c3 ∧ 0 ≤ v.c4 ∧ 0 ≤ v.c5 ∧ 0 ≤ v.c6 ∧ 0 ≤ v.c7 ∧ 0 ≤ v.c8 ∧ 0 ≤ v.c9 ∧ 0 ≤ v.c10

/-- every tail sum of active buckets (levels k..10, k = 1..10) of the
first vector is at most the corresponding tail sum of the second; this
is the dominance order preserved by the daily redistribution. -/
def TailLe (v w : Capacity) : Prop :=
  v.c1 + v.c2 + v.c3 + v.c4 + v.c5 + v.c6 + v.c7 + v.c8 + v.c9 + v.c10 ≤ w.c1 + w.c2 + w.c3 + w.c4 + w.c5 + w.c6 + w.c7 + w.c8 + w.c9 + w.c10 ∧
  v.c2 + v.c3 + v.c4 + v.c5 + v.c6 + v.c7 + v.c8 + v.c9 + v.c10 ≤ w.c2 + w.c3 + w.c4 + w.c5 + w.c6 + w.c7 + w.c8 + w.c9 + w.c10 ∧
  v.c3 + v.c4 + v.c5 + v.c6 + v.c7 + v.c8 + v.c9 + v.c10 ≤ w.c3 + w.c4 + w.c5 + w.c6 + w.c7 + w.c8 + w.c9 + w.c10 ∧
  v.c4 + v.c5 + v.c6 + v.c7 + v.c8 + v.c9 + v.c10 ≤ w.c4 + w.c5 + w.c6 + w.c7 + w.c8 + w.c9 + w.c10 ∧
  v.c5 + v.c6 + v.c7 + v.c8 + v.c9 + v.c10 ≤ w.c5 + w.c6 + w.c7 + w.c8 + w.c9 + w.c10 ∧
  v.c6 + v.c7 + v.c8 + v.c9 + v.c10 ≤ w.c6 + w.c7 + w.c8 + w.c9 + w.c10 ∧
  v.c7 + v.c8 + v.c9 + v.c10 ≤ w.c7 + w.c8 + w.c9 + w.c10 ∧
  v.c8 + v.c9 + v.c10 ≤ w.c8 + w.c9 + w.c10 ∧
  v.c9 + v.c10 ≤ w.c9 + w.c10 ∧
  v.c10 ≤ w.c10

/-! ## Association-list lemmas -/

theorem lookupKey_cons_self {α : Type} {t : List (String × α)} {k : String} {v : α} :
    lookupKey ((k, v) :: t) k = some v := by
  simp [lookupKey]

theorem lookupKey_cons_ne {α : Type} {t : List (String × α)} {k x : String} {v : α}
    (h : k ≠ x) : lookupKey ((k, v) :: t) x = lookupKey t x := by
  simp [lookupKey, h]

theorem lookupKey_isSome_mem {α : Type} {l : List (String × α)} {x : String}
    (h : (lookupKey l x).isSome) : x ∈ l.map Prod.fst := by
  induction l with
  | nil => simp [lookupKey] at h
  | cons p t ih =>
      obtain ⟨k, v⟩ := p
      by_cases hk : k = x
      · simp [hk]
      · simp only [lookupKey, if_neg hk] at h
        simpa using Or.inr (ih h)

theorem lookupKey_eq_none {α : Type} {l : List (String × α)} {x : String}
    (h : x ∉ l.map Prod.fst) : lookupKey l x = none := by
  induction l with
  | nil => rfl
  | cons p t ih =>
      obtain ⟨k, v⟩ := p
      simp only [List.map_cons, List.mem_cons] at h
      push_neg at h
      rw [lookupKey_cons_ne (fun hh => h.1 hh.symm)]
      exact ih h.2

theorem mem_setAdd {l : List String} {x y : String} :
    x ∈ setAdd l y ↔ x ∈ l ∨ x = y := by
  unfold setAdd
  split <;> rename_i h
  · constructor
    · exact fun hx => Or.inl hx
    · rintro (hx | rfl) <;> [exact hx; exact h]
  · simp

theorem setAdd_nodup {l : List String} (h : l.Nodup) (y : String) :
    (setAdd l y).Nodup := by
  unfold setAdd
  split <;> rename_i hy
  · exact h
  · simpa using List.Nodup.append h (List.nodup_singleton y) (by simpa using hy)

theorem setAdd_ne_nil {l : List String} (y : String) : setAdd l y ≠ [] := by
  unfold setAdd
  split <;> rename_i hy
  · rintro rfl; simp at hy
  · simp

theorem lookupKey_childAdd (l : List (String × List String)) (r c x : String) :
    lookupKey (childAdd l r c) x =
      if x = r then some (setAdd ((lookupKey l r).getD []) c)
      else lookupKey l x := by
  induction l with
  | nil =>
      by_cases hx : x = r
      · subst hx; simp [childAdd, lookupKey, setAdd]
      · simp [childAdd, lookupKey, hx, Ne.symm hx]
  | cons p t ih =>
      obtain ⟨k, v⟩ := p
      by_cases hk : k = r
      · subst hk
        by_cases hx : x = k
        · subst hx; simp [childAdd, lookupKey]
        · simp [childAdd, lookupKey, hx, Ne.symm hx]
      · simp only [childAdd, if_neg hk]
        by_cases hx : k = x
        · subst hx
          simp [lookupKey, hk]
        · rw [lookupKey_cons_ne hx, ih, lookupKey_cons_ne hk, lookupKey_cons_ne hx]

theorem childAdd_keys (l : List (String × List String)) (r c : String) :
    (childAdd l r c).map Prod.fst = if r ∈ l.map Prod.fst then l.map Prod.fst
      else l.map Prod.fst ++ [r] := by
  induction l with
  | nil => simp [childAdd]
  | cons p t ih =>
      obtain ⟨k, v⟩ := p
      by_cases hk : k = r
      · subst hk; simp [childAdd]
      · have : ¬ r = k := fun h => hk h.symm
        simp only [childAdd, if_neg hk, List.map_cons, List.mem_cons, this, false_or]
        rw [ih]
        split <;> simp

/-! ## Walk lemmas

`UpStep ps x y` is one step of the parent walk: y is the recorded
referrer of x.  Its transitive closure is the strict-ancestor relation. -/

theorem lastOf_cons (a b : String) (l : List String) :
    lastOf a (b :: l) = lastOf b l := by
  simp only [lastOf, List.getLastD_cons]

theorem transGen_cases_head {α : Type} {r : α → α → Prop} {a b : α}
    (h : Relation.TransGen r a b) : r a b ∨ ∃ c, r a c ∧ Relation.TransGen r c b := by
  rcases Relation.TransGen.head'_iff.mp h with ⟨c, hac, hcb⟩
  rcases Relation.reflTransGen_iff_eq_or_transGen.mp hcb with rfl | htrans
  · exact Or.inl hac
  · exact Or.inr ⟨c, hac, htrans⟩

theorem walkParents_sound {ps : List (String × String)} {f : Nat} {a b : String}
    (h : b ∈ walkParents ps f a) : Relation.TransGen (UpStep ps) a b := by
  induction f generalizing a with
  | zero => simp [walkParents] at h
  | succ f ih =>
      unfold walkParents at h
      cases hp : lookupKey ps a with
      | none => rw [hp] at h; simp at h
      | some p =>
          rw [hp] at h
          rcases List.mem_cons.mp h with rfl | hmem
          · exact Relation.TransGen.single hp
          · exact Relation.TransGen.head hp (ih hmem)

theorem walkParents_nodup {ps : List (String × String)}
    (hacyc : AcyclicParents ps) (f : Nat) (a : String) :
    (a :: walkParents ps f a).Nodup := by
  induction f generalizing a with
  | zero => simp [walkParents]
  | succ f ih =>
      unfold walkParents
      cases hp : lookupKey ps a with
      | none => simp
      | some p =>
          refine List.nodup_cons.mpr ⟨?_, ih p⟩
          intro hmem
          rcases List.mem_cons.mp hmem with rfl | hmem
          · exact hacyc a (Relation.TransGen.single hp)
          · exact hacyc a (Relation.TransGen.head hp (walkParents_sound hmem))

theorem walkParents_length_le (ps : List (String × String)) (f : Nat) (a : String) :
    (walkParents ps f a).length ≤ f := by
  induction f generalizing a with
  | zero => simp [walkParents]
  | succ f ih =>
      unfold walkParents
      cases lookupKey ps a with
      | none => simp
      | some p => simpa using ih p

theorem walkParents_short_ends {ps : List (String × String)} {f : Nat} {a : String}
    (h : (walkParents ps f a).length < f) :
    lookupKey ps (lastOf a (walkParents ps f a)) = none := by
  induction f generalizing a with
  | zero => omega
  | succ f ih =>
      unfold walkParents at h ⊢
      cases hp : lookupKey ps a with
      | none => simpa [lastOf] using hp
      | some p =>
          rw [hp] at h
          have h' : (p :: walkParents ps f p).length < f + 1 := h
          simp only [List.length_cons, Nat.add_lt_add_iff_right] at h'
          show lookupKey ps (lastOf a (p :: walkParents ps f p)) = none
          rw [lastOf_cons]
          exact ih h'

theorem walkParents_isSome_of_not_last {ps : List (String × String)} {f : Nat}
    {a : String} (hlast : (lookupKey ps (lastOf a (walkParents ps f a))).isSome) :
    ∀ x ∈ a :: walkParents ps f a, (lookupKey ps x).isSome := by
  induction f generalizing a with
  | zero =>
      intro x hx
      simp only [walkParents, List.mem_singleton] at hx
      subst hx
      simpa [walkParents, lastOf] using hlast
  | succ f ih =>
      intro x hx
      unfold walkParents at hx hlast
      cases hp : lookupKey ps a with
      | none =>
          rw [hp] at hx hlast
          simp only [List.mem_singleton] at hx
          subst hx
          simpa [lastOf] using hlast
      | some p =>
          rw [hp] at hx hlast
          rw [lastOf_cons] at hlast
          rcases List.mem_cons.mp hx with rfl | hmem
          · simp [hp]
          · exact ih hlast x hmem

theorem walkParents_full_ends {ps : List (String × String)}
    (hacyc : AcyclicParents ps) (a : String) :
    lookupKey ps (lastOf a (walkParents ps ps.length a)) = none := by
  by_cases hlen : (walkParents ps ps.length a).length < ps.length
  · exact walkParents_short_ends hlen
  · by_contra hsome
    have hsome' : (lookupKey ps (lastOf a (walkParents ps ps.length a))).isSome := by
      cases h : lookupKey ps (lastOf a (walkParents ps ps.length a)) with
      | none => exact absurd h hsome
      | some _ => simp
    have hall := walkParents_isSome_of_not_last hsome'
    have hnodup := walkParents_nodup hacyc ps.length a
    have hsub : (a :: walkParents ps ps.length a) ⊆ ps.map Prod.fst := by
      intro x hx
      exact lookupKey_isSome_mem (hall x hx)
    have hlen' : (a :: walkParents ps ps.length a).length ≤ (ps.map Prod.fst).length := by
      classical
      have h1 : (a :: walkParents ps ps.length a).toFinset.card
          = (a :: walkParents ps ps.length a).length :=
        List.toFinset_card_of_nodup hnodup
      have h2 : (a :: walkParents ps ps.length a).toFinset ⊆
          (ps.map Prod.fst).toFinset := by
        intro x hx
        exact List.mem_toFinset.mpr (hsub (List.mem_toFinset.mp hx))
      have h3 := Finset.card_le_card h2
      have h4 := (ps.map Prod.fst).toFinset_card_le
      omega
    have : (walkParents ps ps.length a).length = ps.length := by
      have := walkParents_length_le ps ps.length a
      omega
    simp only [List.length_cons, this, List.length_map] at hlen'
    omega

theorem walkParents_adequate_aux {ps : List (String × String)} {f : Nat} {a b : String}
    (hend : lookupKey ps (lastOf a (walkParents ps f a)) = none)
    (h : Relation.TransGen (UpStep ps) a b) : b ∈ walkParents ps f a := by
  induction f generalizing a with
  | zero =>
      rcases transGen_cases_head h with hab | ⟨c, hac, _⟩
      · rw [show lastOf a (walkParents ps 0 a) = a from rfl] at hend
        exact absurd hab (by simp [UpStep, hend])
      · rw [show lastOf a (walkParents ps 0 a) = a from rfl] at hend
        exact absurd hac (by simp [UpStep, hend])
  | succ f ih =>
      unfold walkParents at hend ⊢
      cases hp : lookupKey ps a with
      | none =>
          rcases transGen_cases_head h with hab | ⟨c, hac, _⟩
          · exact absurd hab (by simp [UpStep, hp])
          · exact absurd hac (by simp [UpStep, hp])
      | some p =>
          rw [hp] at hend
          have hend' : lookupKey ps (lastOf a (p :: walkParents ps f p)) = none := hend
          rw [lastOf_cons] at hend'
          show b ∈ p :: walkParents ps f p
          rcases transGen_cases_head h with hab | ⟨c, hac, hcb⟩
          · have hb : p = b := by
              have := hab
              rw [UpStep, hp] at this
              exact Option.some_injective _ this
            subst hb
            exact List.mem_cons_self _ _
          · have hc : p = c := by
              have := hac
              rw [UpStep, hp] at this
              exact Option.some_injective _ this
            subst hc
            exact List.mem_cons_of_mem _ (ih hend' hcb)

/-- On an acyclic parents map the fuelled walk with fuel `ps.length` is
complete: its members are exactly the strict ancestors of the start. -/
theorem mem_walkParents_iff {ps : List (String × String)}
    (hacyc : AcyclicParents ps) (a b : String) :
    b ∈ walkParents ps ps.length a ↔ Relation.TransGen (UpStep ps) a b :=
  ⟨walkParents_sound, walkParents_adequate_aux (walkParents_full_ends hacyc a)⟩

theorem lookupKey_isSome_of_mem {α : Type} {l : List (String × α)} {x : String}
    (h : x ∈ l.map Prod.fst) : (lookupKey l x).isSome := by
  induction l with
  | nil => simp at h
  | cons p t ih =>
      obtain ⟨k, v⟩ := p
      by_cases hk : k = x
      · subst hk; simp [lookupKey_cons_self]
      · rw [lookupKey_cons_ne hk]
        simp only [List.map_cons, List.mem_cons] at h
        rcases h with rfl | h
        · exact absurd rfl hk
        · exact ih h

theorem mem_childAdd {l : List (String × List String)} {r c : String}
    {q : String × List String} (h : q ∈ childAdd l r c) :
    q ∈ l ∨ ∃ old, q = (r, setAdd old c) ∧ (old = [] ∨ (r, old) ∈ l) := by
  induction l with
  | nil =>
      simp only [childAdd, List.mem_singleton] at h
      exact Or.inr ⟨[], by simpa [setAdd] using h, Or.inl rfl⟩
  | cons p t ih =>
      obtain ⟨k, v⟩ := p
      by_cases hk : k = r
      · subst hk
        simp only [childAdd, if_pos rfl] at h
        rcases List.mem_cons.mp h with hq | h
        · exact Or.inr ⟨v, hq, Or.inr (List.mem_cons_self _ _)⟩
        · exact Or.inl (List.mem_cons_of_mem _ h)
      · simp only [childAdd, if_neg hk, List.mem_cons] at h
        rcases h with rfl | h
        · exact Or.inl (List.mem_cons_self _ _)
        · rcases ih h with h' | ⟨old, rfl, hold⟩
          · exact Or.inl (List.mem_cons_of_mem _ h')
          · refine Or.inr ⟨old, rfl, ?_⟩
            rcases hold with rfl | hold
            · exact Or.inl rfl
            · exact Or.inr (List.mem_cons_of_mem _ hold)

/-! ## Acyclicity is preserved by a checked edge insertion -/

theorem upStep_cons {ps : List (String × String)} {r c x y : String} :
    UpStep ((c, r) :: ps) x y ↔ (x = c ∧ y = r) ∨ (¬ x = c ∧ UpStep ps x y) := by
  unfold UpStep
  by_cases hx : c = x
  · subst hx
    rw [lookupKey_cons_self]
    simp [eq_comm]
  · rw [lookupKey_cons_ne hx]
    have hxc : ¬ x = c := fun h => hx h.symm
    simp [hxc]

theorem upStep_lift {ps : List (String × String)} {r c x y : String}
    (hnone : lookupKey ps c = none) (h : UpStep ps x y) :
    UpStep ((c, r) :: ps) x y := by
  have hx : ¬ x = c := by
    rintro rfl
    rw [UpStep, hnone] at h
    exact Option.noConfusion h
  exact upStep_cons.mpr (Or.inr ⟨hx, h⟩)

theorem rtg_lift {ps : List (String × String)} {r c x y : String}
    (hnone : lookupKey ps c = none)
    (h : Relation.ReflTransGen (UpStep ps) x y) :
    Relation.ReflTransGen (UpStep ((c, r) :: ps)) x y := by
  induction h with
  | refl => exact Relation.ReflTransGen.refl
  | tail _ hstep ih => exact Relation.ReflTransGen.tail ih (upStep_lift hnone hstep)

theorem rtg_new_to_old {ps : List (String × String)} {r c x y : String}
    (h : Relation.ReflTransGen (UpStep ((c, r) :: ps)) x y) :
    Relation.ReflTransGen (UpStep ps) x y ∨ Relation.ReflTransGen (UpStep ps) x c := by
  induction h using Relation.ReflTransGen.head_induction_on with
  | refl => exact Or.inl Relation.ReflTransGen.refl
  | head hstep _ ih =>
      rcases upStep_cons.mp hstep with ⟨rfl, rfl⟩ | ⟨_, hold⟩
      · exact Or.inr Relation.ReflTransGen.refl
      · rcases ih with h' | h'
        · exact Or.inl (Relation.ReflTransGen.head hold h')
        · exact Or.inr (Relation.ReflTransGen.head hold h')

theorem tg_new_to_old {ps : List (String × String)} {r c x y : String}
    (h : Relation.TransGen (UpStep ((c, r) :: ps)) x y) :
    Relation.TransGen (UpStep ps) x y ∨
      (Relation.ReflTransGen (UpStep ps) x c ∧
        Relation.ReflTransGen (UpStep ((c, r) :: ps)) r y) := by
  induction h using Relation.TransGen.head_induction_on with
  | base hstep =>
      rcases upStep_cons.mp hstep with ⟨rfl, rfl⟩ | ⟨_, hold⟩
      · exact Or.inr ⟨Relation.ReflTransGen.refl, Relation.ReflTransGen.refl⟩
      · exact Or.inl (Relation.TransGen.single hold)
  | ih hstep htail ih =>
      rcases upStep_cons.mp hstep with ⟨rfl, rfl⟩ | ⟨_, hold⟩
      · exact Or.inr ⟨Relation.ReflTransGen.refl, htail.to_reflTransGen⟩
      · rcases ih with h' | ⟨hxc, hry⟩
        · exact Or.inl (Relation.TransGen.head hold h')
        · exact Or.inr ⟨Relation.ReflTransGen.head hold hxc, hry⟩

/-- Inserting the checked edge (candidate ↦ referrer) keeps the parents
map acyclic: the checks guarantee the candidate is fresh, differs from
the referrer, and is not a strict ancestor of the referrer. -/
theorem acyclic_insert {ps : List (String × String)} {r c : String}
    (hacyc : AcyclicParents ps) (hnone : lookupKey ps c = none) (hne : r ≠ c)
    (hnoanc : ¬ Relation.TransGen (UpStep ps) r c) :
    AcyclicParents ((c, r) :: ps) := by
  intro x hx
  rcases tg_new_to_old hx with h' | ⟨hxc, hrx⟩
  · exact hacyc x h'
  · have hrc : Relation.ReflTransGen (UpStep ((c, r) :: ps)) r c :=
      Relation.ReflTransGen.trans hrx (rtg_lift hnone hxc)
    have : Relation.ReflTransGen (UpStep ps) r c := by
      rcases rtg_new_to_old hrc with h' | h' <;> exact h'
    rcases Relation.reflTransGen_iff_eq_or_transGen.mp this with h' | h'
    · exact hne h'.symm
    · exact hnoanc h'

/-! ## Well-formedness of reachable states -/

theorem setAdd_subset {l : List String} {y : String} : l ⊆ setAdd l y :=
  fun _ hx => mem_setAdd.mpr (Or.inl hx)

theorem check_constraints_eq_none {g : ReferralNetwork} {r c : String}
    (h : check_constraints g r c = none) :
    r ≠ c ∧ lookupKey g.parents c = none ∧
      c ∉ walkParents g.parents g.parents.length r := by
  unfold check_constraints at h
  split at h
  · exact Option.noConfusion h
  · rename_i hne
    split at h
    · exact Option.noConfusion h
    · rename_i hpar
      split at h
      · exact Option.noConfusion h
      · rename_i hwalk
        exact ⟨hne, Option.not_isSome_iff_eq_none.mp hpar, hwalk⟩

theorem add_referral_ok {g : ReferralNetwork} {r c : String} {g' : ReferralNetwork}
    (h : add_referral g r c = .ok g') :
    check_constraints g r c = none ∧
      g' = ⟨(c, r) :: g.parents, childAdd g.children r c,
            setAdd (setAdd g.nodes r) c⟩ := by
  unfold add_referral at h
  cases hc : check_constraints g r c with
  | some e => rw [hc] at h; exact Except.noConfusion h
  | none =>
      rw [hc] at h
      refine ⟨rfl, ?_⟩
      cases h
      rfl

theorem add_referral_error_iff {g : ReferralNetwork} {r c : String} {e : RefError} :
    add_referral g r c = .error e ↔ check_constraints g r c = some e := by
  unfold add_referral
  cases hc : check_constraints g r c with
  | some e' =>
      constructor
      · intro h; cases h; rfl
      · intro h; cases h; rfl
  | none =>
      constructor
      · intro h; exact Except.noConfusion h
      · intro h; exact Option.noConfusion h

/-- `add_referral` preserves well-formedness (whether it succeeds or raises). -/
theorem wf_addReferralOrKeep {g : ReferralNetwork} (hwf : WF g) (r c : String) :
    WF (addReferralOrKeep g r c) := by
  unfold addReferralOrKeep
  cases hadd : add_referral g r c with
  | error e => exact hwf
  | ok g' =>
      obtain ⟨hchk, rfl⟩ := add_referral_ok hadd
      obtain ⟨hne, hnone, hwalk⟩ := check_constraints_eq_none hchk
      have hnoanc : ¬ Relation.TransGen (UpStep g.parents) r c := by
        rw [← mem_walkParents_iff hwf.acyclic]; exact hwalk
      have hcnotkey : c ∉ g.parents.map Prod.fst := by
        intro hmem
        have hs := lookupKey_isSome_of_mem hmem
        rw [hnone] at hs
        simp at hs
      constructor
      case pkNodup =>
        show (c :: g.parents.map Prod.fst).Nodup
        exact List.nodup_cons.mpr ⟨hcnotkey, hwf.pkNodup⟩
      case ckNodup =>
        rw [childAdd_keys]
        split
        · exact hwf.ckNodup
        · rename_i hr
          rw [List.nodup_append]
          exact ⟨hwf.ckNodup, List.nodup_singleton r,
            fun a ha hb => hr (List.mem_singleton.mp hb ▸ ha)⟩
      case cvNodup =>
        intro q hq
        rcases mem_childAdd hq with h' | ⟨old, rfl, hold⟩
        · exact hwf.cvNodup q h'
        · rcases hold with rfl | hold
          · exact setAdd_nodup List.nodup_nil c
          · exact setAdd_nodup (hwf.cvNodup (r, old) hold) c
      case cvNe =>
        intro q hq
        rcases mem_childAdd hq with h' | ⟨old, rfl, _⟩
        · exact hwf.cvNe q h'
        · exact setAdd_ne_nil c
      case consist =>
        intro r' c'
        have hl : childrenOf ⟨(c, r) :: g.parents, childAdd g.children r c,
              setAdd (setAdd g.nodes r) c⟩ r'
            = if r' = r then setAdd (childrenOf g r) c else childrenOf g r' := by
          show (lookupKey (childAdd g.children r c) r').getD [] = _
          rw [lookupKey_childAdd]
          split <;> rfl
        rw [hl]
        show _ ↔ lookupKey ((c, r) :: g.parents) c' = some r'
        by_cases hc' : c = c'
        · subst hc'
          rw [lookupKey_cons_self]
          by_cases hr' : r' = r
          · subst hr'
            simp [mem_setAdd]
          · constructor
            · intro hmem
              split at hmem
              · exact absurd ‹r' = r› hr'
              · rw [hwf.consist r' c, hnone] at hmem
                exact Option.noConfusion hmem
            · intro hmem
              exact absurd (Option.some_injective _ hmem).symm hr'
        · rw [lookupKey_cons_ne hc']
          by_cases hr' : r' = r
          · subst hr'
            rw [if_pos rfl]
            have : c' ∈ setAdd (childrenOf g r') c ↔ c' ∈ childrenOf g r' := by
              rw [mem_setAdd]
              constructor
              · rintro (h' | rfl)
                · exact h'
                · exact absurd rfl hc'
              · exact Or.inl
            rw [this]
            exact hwf.consist r' c'
          · rw [if_neg hr']
            exact hwf.consist r' c'
      case acyclic => exact acyclic_insert hwf.acyclic hnone hne hnoanc
      case noSelf =>
        intro c' r' h
        by_cases hc' : c = c'
        · subst hc'
          rw [lookupKey_cons_self] at h
          have : r = r' := Option.some_injective _ h
          subst this
          exact fun hh => hne hh.symm
        · rw [lookupKey_cons_ne hc'] at h
          exact hwf.noSelf c' r' h
      case pdomNodes =>
        intro c' r' h
        by_cases hc' : c = c'
        · subst hc'
          exact mem_setAdd.mpr (Or.inr rfl)
        · rw [lookupKey_cons_ne hc'] at h
          exact setAdd_subset (setAdd_subset (hwf.pdomNodes c' r' h))
      case prngNodes =>
        intro c' r' h
        by_cases hc' : c = c'
        · subst hc'
          rw [lookupKey_cons_self] at h
          have : r = r' := Option.some_injective _ h
          subst this
          exact setAdd_subset (mem_setAdd.mpr (Or.inr rfl))
        · rw [lookupKey_cons_ne hc'] at h
          exact setAdd_subset (setAdd_subset (hwf.prngNodes c' r' h))
      case cdomNodes =>
        intro r' h
        rw [lookupKey_childAdd] at h
        split at h
        · rename_i hr'
          subst hr'
          exact setAdd_subset (mem_setAdd.mpr (Or.inr rfl))
        · exact setAdd_subset (setAdd_subset (hwf.cdomNodes r' h))
      case nodesNodup =>
        exact setAdd_nodup (setAdd_nodup hwf.nodesNodup r) c

theorem wf_init : WF ReferralNetwork.init := by
  refine ⟨List.nodup_nil, List.nodup_nil, ?_, ?_, ?_, ?_, ?_, ?_, ?_, ?_,
    List.nodup_nil⟩
  · intro q hq; simp [ReferralNetwork.init] at hq
  · intro q hq; simp [ReferralNetwork.init] at hq
  · intro r c; simp [childrenOf, ReferralNetwork.init, lookupKey]
  · intro u hu
    rcases transGen_cases_head hu with h | ⟨x, h, _⟩ <;> exact Option.noConfusion h
  · intro c r h; exact Option.noConfusion h
  · intro c r h; exact Option.noConfusion h
  · intro c r h; exact Option.noConfusion h
  · intro r h; simp [ReferralNetwork.init, lookupKey] at h

theorem wf_foldl (ops : List (String × String)) :
    ∀ g : ReferralNetwork, WF g →
      WF (ops.foldl (fun g rc => addReferralOrKeep g rc.1 rc.2) g) := by
  induction ops with
  | nil => intro g hwf; exact hwf
  | cons op t ih =>
      intro g hwf
      exact ih _ (wf_addReferralOrKeep hwf op.1 op.2)

/-- every reachable state is well-formed. -/
theorem wf_of_reachable {g : ReferralNetwork} (h : Reachable g) : WF g := by
  obtain ⟨ops, rfl⟩ := h
  exact wf_foldl ops ReferralNetwork.init wf_init

theorem dstep_eq_swap (g : ReferralNetwork) :
    DStep g = Function.swap (UpStep g.parents) := rfl

theorem check_self_iff (g : ReferralNetwork) (r c : String) :
    check_constraints g r c = some .selfReferral ↔ r = c := by
  unfold check_constraints
  split
  · rename_i h; simp [h]
  · rename_i h
    split
    · simp [h]
    · split <;> simp [h]

theorem check_dup_iff (g : ReferralNetwork) (r c : String) :
    check_constraints g r c = some .duplicateReferrer ↔
      ¬ r = c ∧ (lookupKey g.parents c).isSome := by
  unfold check_constraints
  split
  · rename_i h; simp [h]
  · rename_i h
    split
    · rename_i h2; simp [h, h2]
    · rename_i h2
      split <;> simp [h, h2]

theorem check_cycle_iff {g : ReferralNetwork} (hacyc : AcyclicParents g.parents)
    (r c : String) :
    check_constraints g r c = some .cycle ↔
      ¬ r = c ∧ lookupKey g.parents c = none ∧
        Relation.TransGen (UpStep g.parents) r c := by
  unfold check_constraints
  split
  · rename_i h; simp [h]
  · rename_i h
    split
    · rename_i h2; simp [h, Option.isSome_iff_ne_none.mp h2]
    · rename_i h2
      have h2' : lookupKey g.parents c = none := Option.not_isSome_iff_eq_none.mp h2
      split
      · rename_i h3
        simp [h, h2', (mem_walkParents_iff hacyc r c).mp h3]
      · rename_i h3
        simp only [h, h2', not_false_iff, true_and]
        constructor
        · intro hh; exact Option.noConfusion hh
        · intro hh
          exact absurd ((mem_walkParents_iff hacyc r c).mpr hh) h3

theorem check_none_iff {g : ReferralNetwork} (hacyc : AcyclicParents g.parents)
    (r c : String) :
    check_constraints g r c = none ↔
      ¬ r = c ∧ lookupKey g.parents c = none ∧
        ¬ Relation.TransGen (UpStep g.parents) r c := by
  constructor
  · intro h
    obtain ⟨h1, h2, h3⟩ := check_constraints_eq_none h
    exact ⟨h1, h2, fun hh => h3 ((mem_walkParents_iff hacyc r c).mpr hh)⟩
  · rintro ⟨h1, h2, h3⟩
    unfold check_constraints
    rw [if_neg h1, h2]
    simp only [Option.isSome_none, Bool.false_eq_true, if_false]
    rw [if_neg (fun hh => h3 ((mem_walkParents_iff hacyc r c).mp hh))]

theorem orKeep_of_error {g : ReferralNetwork} {r c : String} {e : RefError}
    (h : add_referral g r c = .error e) : addReferralOrKeep g r c = g := by
  unfold addReferralOrKeep
  rw [h]

/-! ## Claim C3 -/

/-- C3: after every finite sequence of `add_referral` calls, whether each
individual call succeeds or raises, the graph satisfies all four
invariants: no user is its own referrer; every user has at most one
entry in `parent` (the keys of the parents map are duplicate-free); the
referrer → candidate edge relation is acyclic; and `children[r]`
contains c iff `parent[c] == r`. -/
theorem forest_invariants_after_any_ops (ops : List (String × String)) :
    (∀ c r, lookupKey (buildNetwork ops).parents c = some r → c ≠ r) ∧
    (((buildNetwork ops).parents.map Prod.fst).Nodup) ∧
    (∀ u, ¬ Relation.TransGen (DStep (buildNetwork ops)) u u) ∧
    (∀ r c, c ∈ childrenOf (buildNetwork ops) r ↔
      lookupKey (buildNetwork ops).parents c = some r) := by
  have hwf : WF (buildNetwork ops) := wf_foldl ops ReferralNetwork.init wf_init
  refine ⟨hwf.noSelf, hwf.pkNodup, ?_, hwf.consist⟩
  intro u hu
  rw [dstep_eq_swap] at hu
  exact hwf.acyclic u (Relation.transGen_swap.mp hu)

/-! ## Claim C4 -/

/-- C4: `add_referral` raises a `ReferralError` iff the referrer equals
the candidate, or the candidate already has a referrer, or the candidate
is a strict ancestor of the referrer; the three constraints are checked
in that order (each specific error is returned exactly when its
constraint is the first violated one); and whenever it raises, the
state a caller continues with is exactly the unchanged receiver. -/
theorem add_referral_error_spec {g : ReferralNetwork} (hg : Reachable g)
    (referrer candidate : String) :
    ((∃ e, add_referral g referrer candidate = .error e) ↔
      (referrer = candidate ∨ (lookupKey g.parents candidate).isSome ∨
        StrictDesc g candidate referrer)) ∧
    (add_referral g referrer candidate = .error .selfReferral ↔
      referrer = candidate) ∧
    (add_referral g referrer candidate = .error .duplicateReferrer ↔
      ¬ referrer = candidate ∧ (lookupKey g.parents candidate).isSome) ∧
    (add_referral g referrer candidate = .error .cycle ↔
      ¬ referrer = candidate ∧ lookupKey g.parents candidate = none ∧
        StrictDesc g candidate referrer) ∧
    (∀ e, add_referral g referrer candidate = .error e →
      addReferralOrKeep g referrer candidate = g) := by
  have hwf : WF g := wf_of_reachable hg
  have hsd : StrictDesc g candidate referrer ↔
      Relation.TransGen (UpStep g.parents) referrer candidate := by
    rw [StrictDesc, dstep_eq_swap]
    exact Relation.transGen_swap
  refine ⟨?_, ?_, ?_, ?_, fun e he => orKeep_of_error he⟩
  · constructor
    · rintro ⟨e, he⟩
      rw [add_referral_error_iff] at he
      cases e with
      | selfReferral => exact Or.inl ((check_self_iff g _ _).mp he)
      | duplicateReferrer =>
          exact Or.inr (Or.inl ((check_dup_iff g _ _).mp he).2)
      | cycle =>
          exact Or.inr (Or.inr (hsd.mpr
            ((check_cycle_iff hwf.acyclic _ _).mp he).2.2))
    · intro h
      by_contra hno
      push_neg at hno
      have hok : check_constraints g referrer candidate = none := by
        cases hc : check_constraints g referrer candidate with
        | none => rfl
        | some e => exact absurd (add_referral_error_iff.mpr hc) (hno e)
      obtain ⟨h1, h2, h3⟩ := (check_none_iff hwf.acyclic _ _).mp hok
      rcases h with h | h | h
      · exact h1 h
      · rw [h2] at h; simp at h
      · exact h3 (hsd.mp h)
  · rw [add_referral_error_iff]; exact check_self_iff g _ _
  · rw [add_referral_error_iff]; exact check_dup_iff g _ _
  · rw [add_referral_error_iff]
    rw [check_cycle_iff hwf.acyclic, hsd]

/-- C4 witness: the theorem applied to the concrete chain A → B,
attempting the cycle-creating call add_referral(B, A). -/
theorem add_referral_error_spec_witness :
    ((∃ e, add_referral (buildNetwork [("A", "B")]) "B" "A" = .error e) ↔
      ("B" = "A" ∨ (lookupKey (buildNetwork [("A", "B")]).parents "A").isSome ∨
        StrictDesc (buildNetwork [("A", "B")]) "A" "B")) ∧
    (add_referral (buildNetwork [("A", "B")]) "B" "A" = .error .selfReferral ↔
      "B" = "A") ∧
    (add_referral (buildNetwork [("A", "B")]) "B" "A" = .error .duplicateReferrer ↔
      ¬ "B" = "A" ∧ (lookupKey (buildNetwork [("A", "B")]).parents "A").isSome) ∧
    (add_referral (buildNetwork [("A", "B")]) "B" "A" = .error .cycle ↔
      ¬ "B" = "A" ∧ lookupKey (buildNetwork [("A", "B")]).parents "A" = none ∧
        StrictDesc (buildNetwork [("A", "B")]) "A" "B") ∧
    (∀ e, add_referral (buildNetwork [("A", "B")]) "B" "A" = .error e →
      addReferralOrKeep (buildNetwork [("A", "B")]) "B" "A"
        = buildNetwork [("A", "B")]) :=
  add_referral_error_spec ⟨[("A", "B")], rfl⟩ "B" "A"

/-! ## Claim C8: all_ancestors -/

theorem parentChain_walk (ps : List (String × String)) (f : Nat) (a : String) :
    ParentChain ps a (walkParents ps f a) := by
  induction f generalizing a with
  | zero => trivial
  | succ f ih =>
      unfold walkParents
      cases hp : lookupKey ps a with
      | none => trivial
      | some p => exact ⟨hp, ih p⟩

theorem walkParents_eq_nil_iff (ps : List (String × String)) (u : String) :
    walkParents ps ps.length u = [] ↔ lookupKey ps u = none := by
  cases hl : ps.length with
  | zero =>
      have hps : ps = [] := List.length_eq_zero.mp hl
      subst hps
      simp [walkParents, lookupKey]
  | succ n =>
      unfold walkParents
      cases hp : lookupKey ps u with
      | none => simp
      | some p => simp

theorem lookup_none_of_not_node {g : ReferralNetwork} (hwf : WF g) {u : String}
    (hu : u ∉ g.nodes) : lookupKey g.parents u = none := by
  cases hp : lookupKey g.parents u with
  | none => rfl
  | some r => exact absurd (hwf.pdomNodes u r hp) hu

/-- C8: `all_ancestors(u)` walks the parent pointers: its result is the
parents chain starting at u (immediate parent first, each element the
recorded referrer of the one before), it ends at a root, its members are
exactly the strict ancestors of u, it is empty iff u is a root or
unknown, and on the concrete chain A → B → C → D it returns [C, B, A]
for D. -/
theorem all_ancestors_spec {g : ReferralNetwork} (hg : Reachable g)
    (user : String) :
    ParentChain g.parents user (all_ancestors g user) ∧
    lookupKey g.parents (lastOf user (all_ancestors g user)) = none ∧
    (∀ s, s ∈ all_ancestors g user ↔
      Relation.TransGen (UpStep g.parents) user s) ∧
    (all_ancestors g user = [] ↔ lookupKey g.parents user = none) ∧
    (user ∉ g.nodes → all_ancestors g user = []) ∧
    all_ancestors (buildNetwork chainOps) "D" = ["C", "B", "A"] := by
  have hwf : WF g := wf_of_reachable hg
  refine ⟨parentChain_walk _ _ _, walkParents_full_ends hwf.acyclic user,
    fun s => mem_walkParents_iff hwf.acyclic user s,
    walkParents_eq_nil_iff _ _, ?_, by decide⟩
  intro hu
  show walkParents g.parents g.parents.length user = []
  rw [walkParents_eq_nil_iff]
  exact lookup_none_of_not_node hwf hu

/-- C8 witness: the theorem applied to the concrete chain A → B → C → D
at the user D. -/
theorem all_ancestors_spec_witness :
    ParentChain (buildNetwork chainOps).parents "D"
      (all_ancestors (buildNetwork chainOps) "D") ∧
    lookupKey (buildNetwork chainOps).parents
      (lastOf "D" (all_ancestors (buildNetwork chainOps) "D")) = none ∧
    (∀ s, s ∈ all_ancestors (buildNetwork chainOps) "D" ↔
      Relation.TransGen (UpStep (buildNetwork chainOps).parents) "D" s) ∧
    (all_ancestors (buildNetwork chainOps) "D" = [] ↔
      lookupKey (buildNetwork chainOps).parents "D" = none) ∧
    ("D" ∉ (buildNetwork chainOps).nodes →
      all_ancestors (buildNetwork chainOps) "D" = []) ∧
    all_ancestors (buildNetwork chainOps) "D" = ["C", "B", "A"] :=
  all_ancestors_spec ⟨chainOps, rfl⟩ "D"

/-! ## Claim C7: all_referrals (DFS over the children index) -/

theorem lookupKey_mem {α : Type} {l : List (String × α)} {x : String} {v : α}
    (h : lookupKey l x = some v) : (x, v) ∈ l := by
  induction l with
  | nil => exact Option.noConfusion h
  | cons p t ih =>
      obtain ⟨k, w⟩ := p
      by_cases hk : k = x
      · subst hk
        rw [lookupKey_cons_self] at h
        cases h
        exact List.mem_cons_self _ _
      · rw [lookupKey_cons_ne hk] at h
        exact List.mem_cons_of_mem _ (ih h)

theorem childrenOf_nodup {g : ReferralNetwork} (hwf : WF g) (u : String) :
    (childrenOf g u).Nodup := by
  unfold childrenOf
  cases h : lookupKey g.children u with
  | none => exact List.nodup_nil
  | some l => exact hwf.cvNodup (u, l) (lookupKey_mem h)

theorem child_upStep {g : ReferralNetwork} (hwf : WF g) {n m : String}
    (h : m ∈ childrenOf g n) : UpStep g.parents m n :=
  (hwf.consist n m).mp h

theorem mem_DstarSet {g : ReferralNetwork} (hwf : WF g) {n v : String} :
    v ∈ DstarSet g n ↔ v = n ∨ Relation.TransGen (UpStep g.parents) v n := by
  unfold DstarSet
  rw [Finset.mem_insert]
  constructor
  · rintro (rfl | hf)
    · exact Or.inl rfl
    · obtain ⟨_, hwalk⟩ := Finset.mem_filter.mp hf
      exact Or.inr ((mem_walkParents_iff hwf.acyclic v n).mp hwalk)
  · rintro (rfl | htg)
    · exact Or.inl rfl
    · refine Or.inr (Finset.mem_filter.mpr ⟨?_, ?_⟩)
      · rcases transGen_cases_head htg with hstep | ⟨z, hstep, _⟩ <;>
          exact List.mem_toFinset.mpr (hwf.pdomNodes v _ hstep)
      · exact (mem_walkParents_iff hwf.acyclic v n).mpr htg

theorem self_mem_DstarSet (g : ReferralNetwork) (n : String) :
    n ∈ DstarSet g n := Finset.mem_insert_self n _

theorem DstarSet_child_subset {g : ReferralNetwork} (hwf : WF g) {n m : String}
    (h : m ∈ childrenOf g n) : DstarSet g m ⊆ DstarSet g n := by
  intro v hv
  rw [mem_DstarSet hwf] at hv ⊢
  rcases hv with rfl | htg
  · exact Or.inr (Relation.TransGen.single (child_upStep hwf h))
  · exact Or.inr (Relation.TransGen.tail htg (child_upStep hwf h))

theorem not_mem_DstarSet_child {g : ReferralNetwork} (hwf : WF g) {n m : String}
    (h : m ∈ childrenOf g n) : n ∉ DstarSet g m := by
  intro hn
  rw [mem_DstarSet hwf] at hn
  rcases hn with heq | htg
  · subst heq
    exact hwf.noSelf n n (child_upStep hwf h) rfl
  · exact hwf.acyclic n (Relation.TransGen.tail htg (child_upStep hwf h))

theorem upStep_rightUnique (ps : List (String × String)) :
    Relator.RightUnique (UpStep ps) := by
  intro a b c h1 h2
  rw [UpStep] at h1 h2
  rw [h1] at h2
  exact Option.some_injective _ h2

theorem no_transGen_between_children {g : ReferralNetwork} (hwf : WF g)
    {n m1 m2 : String} (h1 : m1 ∈ childrenOf g n) (h2 : m2 ∈ childrenOf g n)
    (htg : Relation.TransGen (UpStep g.parents) m1 m2) : False := by
  rcases transGen_cases_head htg with hstep | ⟨z, hstep, htail⟩
  · have : m2 = n := upStep_rightUnique _ hstep (child_upStep hwf h1)
    subst this
    exact hwf.noSelf m2 m2 (child_upStep hwf h2) rfl
  · have : z = n := upStep_rightUnique _ hstep (child_upStep hwf h1)
    subst this
    exact hwf.acyclic z (Relation.TransGen.tail htail (child_upStep hwf h2))

theorem DstarSet_children_disjoint {g : ReferralNetwork} (hwf : WF g)
    {n m1 m2 : String} (h1 : m1 ∈ childrenOf g n) (h2 : m2 ∈ childrenOf g n)
    (hne : m1 ≠ m2) : Disjoint (DstarSet g m1) (DstarSet g m2) := by
  rw [Finset.disjoint_left]
  intro v hv1 hv2
  rw [mem_DstarSet hwf] at hv1 hv2
  have r1 : Relation.ReflTransGen (UpStep g.parents) v m1 := by
    rcases hv1 with rfl | htg
    · exact Relation.ReflTransGen.refl
    · exact htg.to_reflTransGen
  have r2 : Relation.ReflTransGen (UpStep g.parents) v m2 := by
    rcases hv2 with rfl | htg
    · exact Relation.ReflTransGen.refl
    · exact htg.to_reflTransGen
  rcases Relation.ReflTransGen.total_of_right_unique (upStep_rightUnique _) r1 r2
    with h | h
  · rcases Relation.reflTransGen_iff_eq_or_transGen.mp h with heq | htg
    · exact hne heq.symm
    · exact no_transGen_between_children hwf h1 h2 htg
  · rcases Relation.reflTransGen_iff_eq_or_transGen.mp h with heq | htg
    · exact hne heq
    · exact no_transGen_between_children hwf h2 h1 htg

theorem mem_stackSet {g : ReferralNetwork} {stack : List String} {v : String} :
    v ∈ stackSet g stack ↔ ∃ n ∈ stack, v ∈ DstarSet g n := by
  induction stack with
  | nil => simp [stackSet]
  | cons n rest ih =>
      show v ∈ DstarSet g n ∪ stackSet g rest ↔ _
      rw [Finset.mem_union, ih]
      simp

theorem stackSet_cons (g : ReferralNetwork) (n : String) (rest : List String) :
    stackSet g (n :: rest) = DstarSet g n ∪ stackSet g rest := rfl

theorem stackSet_append (g : ReferralNetwork) (l1 l2 : List String) :
    stackSet g (l1 ++ l2) = stackSet g l1 ∪ stackSet g l2 := by
  induction l1 with
  | nil => simp [stackSet]
  | cons n rest ih =>
      rw [List.cons_append, stackSet_cons, stackSet_cons, ih, Finset.union_assoc]

theorem DstarSet_decompose {g : ReferralNetwork} (hwf : WF g) (n : String) :
    DstarSet g n = insert n (stackSet g (childrenOf g n)) ∧
      n ∉ stackSet g (childrenOf g n) := by
  have hnot : n ∉ stackSet g (childrenOf g n) := by
    intro hn
    obtain ⟨m, hm, hmem⟩ := mem_stackSet.mp hn
    exact not_mem_DstarSet_child hwf hm hmem
  refine ⟨?_, hnot⟩
  ext v
  rw [Finset.mem_insert, mem_stackSet, mem_DstarSet hwf]
  constructor
  · rintro (rfl | htg)
    · exact Or.inl rfl
    · obtain ⟨m, hvm, hstep⟩ := Relation.TransGen.tail'_iff.mp htg
      have hm : m ∈ childrenOf g n := (hwf.consist n m).mpr hstep
      refine Or.inr ⟨m, hm, ?_⟩
      rw [mem_DstarSet hwf]
      rcases Relation.reflTransGen_iff_eq_or_transGen.mp hvm with heq | htg'
      · exact Or.inl heq.symm
      · exact Or.inr htg'
  · rintro (rfl | ⟨m, hm, hmem⟩)
    · exact Or.inl rfl
    · have := DstarSet_child_subset hwf hm hmem
      rw [mem_DstarSet hwf] at this
      exact this

/-- the DFS loop, run with enough fuel on pairwise-disjoint pending
subtrees, appends to the accumulator exactly the nodes of those subtrees,
each once. -/
theorem dfsAux_spec {g : ReferralNetwork} (hwf : WF g) :
    ∀ (fuel : Nat) (stack acc : List String),
      List.Pairwise (fun a b => Disjoint (DstarSet g a) (DstarSet g b)) stack →
      (stackSet g stack).card ≤ fuel →
      ∃ L, dfsAux g.children fuel stack acc = acc ++ L ∧ L.Nodup ∧
        ∀ v, v ∈ L ↔ v ∈ stackSet g stack := by
  intro fuel
  induction fuel with
  | zero =>
      intro stack acc hdisj hcard
      cases stack with
      | nil =>
          exact ⟨[], by simp [dfsAux], List.nodup_nil, by simp [stackSet]⟩
      | cons n rest =>
          exfalso
          have hn : n ∈ stackSet g (n :: rest) := by
            rw [stackSet_cons, Finset.mem_union]
            exact Or.inl (self_mem_DstarSet g n)
          have := Finset.card_pos.mpr ⟨n, hn⟩
          omega
  | succ fuel ih =>
      intro stack acc hdisj hcard
      cases stack with
      | nil =>
          exact ⟨[], by simp [dfsAux], List.nodup_nil, by simp [stackSet]⟩
      | cons n rest =>
          have hstep : dfsAux g.children (fuel + 1) (n :: rest) acc
              = dfsAux g.children fuel (childrenOf g n ++ rest) (acc ++ [n]) := rfl
          obtain ⟨hdec, hnotch⟩ := DstarSet_decompose hwf n
          have hdisj_head := List.pairwise_cons.mp hdisj
          have hnotrest : n ∉ stackSet g rest := by
            intro hn
            obtain ⟨r, hr, hmem⟩ := mem_stackSet.mp hn
            exact Finset.disjoint_left.mp (hdisj_head.1 r hr)
              (self_mem_DstarSet g n) hmem
          have hnotnew : n ∉ stackSet g (childrenOf g n ++ rest) := by
            rw [stackSet_append, Finset.mem_union]
            rintro (h | h)
            · exact hnotch h
            · exact hnotrest h
          have hset : stackSet g (n :: rest)
              = insert n (stackSet g (childrenOf g n ++ rest)) := by
            rw [stackSet_cons, stackSet_append, hdec, Finset.insert_union]
          have hcard' : (stackSet g (childrenOf g n ++ rest)).card ≤ fuel := by
            have := Finset.card_insert_of_not_mem hnotnew
            rw [← hset] at this
            omega
          have hdisj' : List.Pairwise
              (fun a b => Disjoint (DstarSet g a) (DstarSet g b))
              (childrenOf g n ++ rest) := by
            rw [List.pairwise_append]
            refine ⟨?_, hdisj_head.2, ?_⟩
            · exact List.Pairwise.imp_of_mem
                (fun ha hb hne => DstarSet_children_disjoint hwf ha hb hne)
                (childrenOf_nodup hwf n)
            · intro a ha b hb
              exact Finset.disjoint_of_subset_left (DstarSet_child_subset hwf ha)
                (hdisj_head.1 b hb)
          obtain ⟨L', hrun, hnodup, hmem⟩ :=
            ih (childrenOf g n ++ rest) (acc ++ [n]) hdisj' hcard'
          refine ⟨n :: L', ?_, ?_, ?_⟩
          · rw [hstep, hrun, List.append_assoc, List.singleton_append]
          · exact List.nodup_cons.mpr ⟨fun hn => hnotnew ((hmem n).mp hn), hnodup⟩
          · intro v
            rw [List.mem_cons, hmem v, hset, Finset.mem_insert]

theorem dfsAux_nil (ch : List (String × List String)) (f : Nat) (acc : List String) :
    dfsAux ch f [] acc = acc := by
  cases f <;> rfl

theorem childrenOf_eq_nil_of_unknown {g : ReferralNetwork} (hwf : WF g)
    {u : String} (hu : u ∉ g.nodes) : childrenOf g u = [] := by
  unfold childrenOf
  cases h : lookupKey g.children u with
  | none => rfl
  | some l =>
      exact absurd (hwf.cdomNodes u (by rw [h]; rfl)) hu

/-- on a well-formed state the DFS result is duplicate-free and holds
exactly the strict descendants; it is empty for unknown or childless
users. -/
theorem all_referrals_char {g : ReferralNetwork} (hwf : WF g)
    (user : String) :
    (all_referrals g user).Nodup ∧
    (∀ v, v ∈ all_referrals g user ↔ StrictDesc g user v) ∧
    (user ∉ g.nodes → all_referrals g user = []) ∧
    (childrenOf g user = [] → all_referrals g user = []) := by
  have hdisj : List.Pairwise (fun a b => Disjoint (DstarSet g a) (DstarSet g b))
      (childrenOf g user) :=
    List.Pairwise.imp_of_mem
      (fun ha hb hne => DstarSet_children_disjoint hwf ha hb hne)
      (childrenOf_nodup hwf user)
  have hsub : stackSet g (childrenOf g user) ⊆ (g.parents.map Prod.fst).toFinset := by
    intro v hv
    obtain ⟨m, hm, hmem⟩ := mem_stackSet.mp hv
    rw [mem_DstarSet hwf] at hmem
    have hsome : (lookupKey g.parents v).isSome := by
      rcases hmem with rfl | htg
      · rw [child_upStep hwf hm]; rfl
      · rcases transGen_cases_head htg with hstep | ⟨z, hstep, _⟩ <;>
          (rw [UpStep] at hstep; rw [hstep]; rfl)
    exact List.mem_toFinset.mpr (lookupKey_isSome_mem hsome)
  have hcard : (stackSet g (childrenOf g user)).card ≤ g.parents.length := by
    calc (stackSet g (childrenOf g user)).card
        ≤ (g.parents.map Prod.fst).toFinset.card := Finset.card_le_card hsub
      _ ≤ (g.parents.map Prod.fst).length := List.toFinset_card_le _
      _ = g.parents.length := List.length_map _ _
  obtain ⟨L, hrun, hnodup, hmem⟩ :=
    dfsAux_spec hwf g.parents.length (childrenOf g user) [] hdisj hcard
  have hall : all_referrals g user = L := by
    show dfsAux g.children g.parents.length (childrenOf g user) [] = L
    rw [hrun, List.nil_append]
  obtain ⟨hdec, hnotch⟩ := DstarSet_decompose hwf user
  have hmem' : ∀ v, v ∈ all_referrals g user ↔ StrictDesc g user v := by
    intro v
    rw [hall, hmem v]
    constructor
    · intro hv
      have hvne : v ≠ user := by
        rintro rfl
        exact hnotch hv
      have : v ∈ DstarSet g user := by rw [hdec]; exact Finset.mem_insert_of_mem hv
      rw [mem_DstarSet hwf] at this
      rcases this with heq | htg
      · exact absurd heq hvne
      · exact Relation.transGen_swap.mpr htg
    · intro hv
      have htg : Relation.TransGen (UpStep g.parents) v user :=
        Relation.transGen_swap.mp hv
      have hne : v ≠ user := by
        rintro rfl
        exact hwf.acyclic v htg
      have : v ∈ DstarSet g user := (mem_DstarSet hwf).mpr (Or.inr htg)
      rw [hdec, Finset.mem_insert] at this
      rcases this with heq | hmem2
      · exact absurd heq hne
      · exact hmem2
  refine ⟨hall ▸ hnodup, hmem', ?_, ?_⟩
  · intro hu
    have hch : childrenOf g user = [] := childrenOf_eq_nil_of_unknown hwf hu
    show dfsAux g.children g.parents.length (childrenOf g user) [] = []
    rw [hch, dfsAux_nil]
  · intro hch
    show dfsAux g.children g.parents.length (childrenOf g user) [] = []
    rw [hch, dfsAux_nil]

/-- C7: `all_referrals(u)` returns exactly the strict descendants of u,
each exactly once (no duplicates), and returns an empty sequence when u
is unknown to the graph or has no children. -/
theorem all_referrals_spec {g : ReferralNetwork} (hg : Reachable g)
    (user : String) :
    (all_referrals g user).Nodup ∧
    (∀ v, v ∈ all_referrals g user ↔ StrictDesc g user v) ∧
    (user ∉ g.nodes → all_referrals g user = []) ∧
    (childrenOf g user = [] → all_referrals g user = []) :=
  all_referrals_char (wf_of_reachable hg) user

/-- C7 witness: the theorem applied to the chain A → B → C → D at A. -/
theorem all_referrals_spec_witness :
    (all_referrals (buildNetwork chainOps) "A").Nodup ∧
    (∀ v, v ∈ all_referrals (buildNetwork chainOps) "A" ↔
      StrictDesc (buildNetwork chainOps) "A" v) ∧
    ("A" ∉ (buildNetwork chainOps).nodes →
      all_referrals (buildNetwork chainOps) "A" = []) ∧
    (childrenOf (buildNetwork chainOps) "A" = [] →
      all_referrals (buildNetwork chainOps) "A" = []) :=
  all_referrals_spec ⟨chainOps, rfl⟩ "A"

/-! ## Claim C5: flow centrality counts source-target pairs -/

/-- C5: for every reachable graph and user u, the flow-centrality score
`|all_ancestors(u)| * |all_referrals(u)|` equals the number of ordered
pairs (s, t), s ≠ t, both distinct from u, such that u lies on the
directed path from s to t (s reaches u and u reaches t; in a forest that
path is unique); and on the chain A → B → C → D → E the score of C is 4,
the maximum over all users, while A and E score 0. -/
theorem flow_centrality_spec {g : ReferralNetwork} (hg : Reachable g)
    (u : String) :
    ({p : String × String | p.1 ≠ p.2 ∧ p.1 ≠ u ∧ p.2 ≠ u ∧
        Reaches g p.1 u ∧ Reaches g u p.2}).ncard = flowCentrality g u ∧
    flowCentrality (buildNetwork chain5Ops) "C" = 4 ∧
    (∀ v ∈ (buildNetwork chain5Ops).nodes,
      flowCentrality (buildNetwork chain5Ops) v ≤ 4) ∧
    flowCentrality (buildNetwork chain5Ops) "A" = 0 ∧
    flowCentrality (buildNetwork chain5Ops) "E" = 0 := by
  have hwf : WF g := wf_of_reachable hg
  refine ⟨?_, by decide, by decide, by decide, by decide⟩
  have hanc : ∀ s, s ∈ all_ancestors g u ↔
      Relation.TransGen (UpStep g.parents) u s :=
    fun s => mem_walkParents_iff hwf.acyclic u s
  have hdesc := (all_referrals_char hwf u).2.1
  have hset : {p : String × String | p.1 ≠ p.2 ∧ p.1 ≠ u ∧ p.2 ≠ u ∧
        Reaches g p.1 u ∧ Reaches g u p.2}
      = ↑(((all_ancestors g u).toFinset) ×ˢ ((all_referrals g u).toFinset)) := by
    ext p
    obtain ⟨s, t⟩ := p
    simp only [Set.mem_setOf_eq, Finset.coe_product, Set.mem_prod,
      Finset.mem_coe, List.mem_toFinset]
    constructor
    · rintro ⟨hst, hsu, htu, hsreach, htreach⟩
      have h1 : Relation.ReflTransGen (UpStep g.parents) u s := by
        rw [Reaches, dstep_eq_swap] at hsreach
        exact Relation.reflTransGen_swap.mp hsreach
      refine ⟨?_, ?_⟩
      · rw [hanc]
        rcases Relation.reflTransGen_iff_eq_or_transGen.mp h1 with heq | htg
        · exact absurd heq hsu
        · exact htg
      · rw [hdesc]
        rcases Relation.reflTransGen_iff_eq_or_transGen.mp htreach with heq | htg
        · exact absurd heq htu
        · exact htg
    · rintro ⟨hs, ht⟩
      rw [hanc] at hs
      rw [hdesc] at ht
      have htup : Relation.TransGen (UpStep g.parents) t u := by
        rw [StrictDesc, dstep_eq_swap] at ht
        exact Relation.transGen_swap.mp ht
      have hsu : s ≠ u := by
        rintro rfl
        exact hwf.acyclic _ hs
      have htu : t ≠ u := by
        rintro rfl
        exact hwf.acyclic _ htup
      have hst : s ≠ t := by
        rintro rfl
        exact hwf.acyclic u (Relation.TransGen.trans hs htup)
      refine ⟨hst, hsu, htu, ?_, ?_⟩
      · rw [Reaches, dstep_eq_swap]
        exact Relation.reflTransGen_swap.mpr hs.to_reflTransGen
      · exact ht.to_reflTransGen
  rw [hset, Set.ncard_coe_Finset, Finset.card_product]
  have hancnodup : (all_ancestors g u).Nodup :=
    List.Nodup.of_cons (walkParents_nodup hwf.acyclic g.parents.length u)
  have hdescnodup : (all_referrals g u).Nodup := (all_referrals_char hwf u).1
  rw [List.toFinset_card_of_nodup hancnodup,
    List.toFinset_card_of_nodup hdescnodup]
  rfl

/-- C5 witness: the theorem applied to the chain A → B → C → D → E at C. -/
theorem flow_centrality_spec_witness :
    ({p : String × String | p.1 ≠ p.2 ∧ p.1 ≠ "C" ∧ p.2 ≠ "C" ∧
        Reaches (buildNetwork chain5Ops) p.1 "C" ∧
        Reaches (buildNetwork chain5Ops) "C" p.2}).ncard
      = flowCentrality (buildNetwork chain5Ops) "C" ∧
    flowCentrality (buildNetwork chain5Ops) "C" = 4 ∧
    (∀ v ∈ (buildNetwork chain5Ops).nodes,
      flowCentrality (buildNetwork chain5Ops) v ≤ 4) ∧
    flowCentrality (buildNetwork chain5Ops) "A" = 0 ∧
    flowCentrality (buildNetwork chain5Ops) "E" = 0 :=
  flow_centrality_spec ⟨chain5Ops, rfl⟩ "C"

/-! ## Claims C6 and C10: the growth recurrence -/

theorem keyIneq (p q bi bj b1 Bi Bj B1 : ℚ) (h0p : 0 ≤ p) (hpq : p ≤ q)
    (hq1 : q ≤ 1) (hbi : bi ≤ Bi) (hbj : bj ≤ Bj) (hb1 : b1 ≤ B1)
    (hslack : bi ≤ bj + b1) :
    bi * (1 - p) + bj * p + b1 * p ≤ Bi * (1 - q) + Bj * q + B1 * q := by
  nlinarith [mul_nonneg (by linarith : (0:ℚ) ≤ q - p)
      (by linarith : (0:ℚ) ≤ bj + b1 - bi),
    mul_nonneg (by linarith : (0:ℚ) ≤ 1 - q) (by linarith : (0:ℚ) ≤ Bi - bi),
    mul_nonneg (by linarith : (0:ℚ) ≤ q) (by linarith : (0:ℚ) ≤ Bj - bj),
    mul_nonneg (by linarith : (0:ℚ) ≤ q) (by linarith : (0:ℚ) ≤ B1 - b1)]

theorem rebuild_nonneg {p s : ℚ} {v : Capacity} (hp : 0 ≤ p) (hp1 : p ≤ 1)
    (hv : NonnegCap v) (hs : 0 ≤ s) : NonnegCap (rebuildCapacity p v s) := by
  obtain ⟨n0, n1, n2, n3, n4, n5, n6, n7, n8, n9, n10⟩ := hv
  have h1p : (0:ℚ) ≤ 1 - p := by linarith
  unfold NonnegCap
  refine ⟨mul_nonneg n1 hp,
    add_nonneg (mul_nonneg n1 h1p) (mul_nonneg n2 hp),
    add_nonneg (mul_nonneg n2 h1p) (mul_nonneg n3 hp),
    add_nonneg (mul_nonneg n3 h1p) (mul_nonneg n4 hp),
    add_nonneg (mul_nonneg n4 h1p) (mul_nonneg n5 hp),
    add_nonneg (mul_nonneg n5 h1p) (mul_nonneg n6 hp),
    add_nonneg (mul_nonneg n6 h1p) (mul_nonneg n7 hp),
    add_nonneg (mul_nonneg n7 h1p) (mul_nonneg n8 hp),
    add_nonneg (mul_nonneg n8 h1p) (mul_nonneg n9 hp),
    add_nonneg (mul_nonneg n9 h1p) (mul_nonneg n10 hp),
    add_nonneg (mul_nonneg n10 h1p) hs⟩


theorem rebuild_tailLe {p q : ℚ} {v w : Capacity} (hp : 0 ≤ p) (hpq : p ≤ q)
    (hq1 : q ≤ 1) (hv : NonnegCap v) (hvw : TailLe v w) :
    TailLe (rebuildCapacity p v (activeMass v * p))
      (rebuildCapacity q w (activeMass w * q)) := by
  obtain ⟨n0, n1, n2, n3, n4, n5, n6, n7, n8, n9, n10⟩ := hv
  obtain ⟨hB1, hB2, hB3, hB4, hB5, hB6, hB7, hB8, hB9, hB10⟩ := hvw
  simp only [TailLe, rebuildCapacity, activeMass]
  refine ⟨?_, ?_, ?_, ?_, ?_, ?_, ?_, ?_, ?_, ?_⟩
  · have h := keyIneq p q (v.c1 + v.c2 + v.c3 + v.c4 + v.c5 + v.c6 + v.c7 + v.c8 + v.c9 + v.c10) (v.c2 + v.c3 + v.c4 + v.c5 + v.c6 + v.c7 + v.c8 + v.c9 + v.c10) (v.c1 + v.c2 + v.c3 + v.c4 + v.c5 + v.c6 + v.c7 + v.c8 + v.c9 + v.c10) (w.c1 + w.c2 + w.c3 + w.c4 + w.c5 + w.c6 + w.c7 + w.c8 + w.c9 + w.c10) (w.c2 + w.c3 + w.c4 + w.c5 + w.c6 + w.c7 + w.c8 + w.c9 + w.c10) (w.c1 + w.c2 + w.c3 + w.c4 + w.c5 + w.c6 + w.c7 + w.c8 + w.c9 + w.c10) hp hpq hq1 hB1 hB2 hB1
      (by linarith)
    linarith [h]
  · have h := keyIneq p q (v.c2 + v.c3 + v.c4 + v.c5 + v.c6 + v.c7 + v.c8 + v.c9 + v.c10) (v.c3 + v.c4 + v.c5 + v.c6 + v.c7 + v.c8 + v.c9 + v.c10) (v.c1 + v.c2 + v.c3 + v.c4 + v.c5 + v.c6 + v.c7 + v.c8 + v.c9 + v.c10) (w.c2 + w.c3 + w.c4 + w.c5 + w.c6 + w.c7 + w.c8 + w.c9 + w.c10) (w.c3 + w.c4 + w.c5 + w.c6 + w.c7 + w.c8 + w.c9 + w.c10) (w.c1 + w.c2 + w.c3 + w.c4 + w.c5 + w.c6 + w.c7 + w.c8 + w.c9 + w.c10) hp hpq hq1 hB2 hB3 hB1
      (by linarith)
    linarith [h]
  · have h := keyIneq p q (v.c3 + v.c4 + v.c5 + v.c6 + v.c7 + v.c8 + v.c9 + v.c10) (v.c4 + v.c5 + v.c6 + v.c7 + v.c8 + v.c9 + v.c10) (v.c1 + v.c2 + v.c3 + v.c4 + v.c5 + v.c6 + v.c7 + v.c8 + v.c9 + v.c10) (w.c3 + w.c4 + w.c5 + w.c6 + w.c7 + w.c8 + w.c9 + w.c10) (w.c4 + w.c5 + w.c6 + w.c7 + w.c8 + w.c9 + w.c10) (w.c1 + w.c2 + w.c3 + w.c4 + w.c5 + w.c6 + w.c7 + w.c8 + w.c9 + w.c10) hp hpq hq1 hB3 hB4 hB1
      (by linarith)
    linarith [h]
  · have h := keyIneq p q (v.c4 + v.c5 + v.c6 + v.c7 + v.c8 + v.c9 + v.c10) (v.c5 + v.c6 + v.c7 + v.c8 + v.c9 + v.c10) (v.c1 + v.c2 + v.c3 + v.c4 + v.c5 + v.c6 + v.c7 + v.c8 + v.c9 + v.c10) (w.c4 + w.c5 + w.c6 + w.c7 + w.c8 + w.c9 + w.c10) (w.c5 + w.c6 + w.c7 + w.c8 + w.c9 + w.c10) (w.c1 + w.c2 + w.c3 + w.c4 + w.c5 + w.c6 + w.c7 + w.c8 + w.c9 + w.c10) hp hpq hq1 hB4 hB5 hB1
      (by linarith)
    linarith [h]
  · have h := keyIneq p q (v.c5 + v.c6 + v.c7 + v.c8 + v.c9 + v.c10) (v.c6 + v.c7 + v.c8 + v.c9 + v.c10) (v.c1 + v.c2 + v.c3 + v.c4 + v.c5 + v.c6 + v.c7 + v.c8 + v.c9 + v.c10) (w.c5 + w.c6 + w.c7 + w.c8 + w.c9 + w.c10) (w.c6 + w.c7 + w.c8 + w.c9 + w.c10) (w.c1 + w.c2 + w.c3 + w.c4 + w.c5 + w.c6 + w.c7 + w.c8 + w.c9 + w.c10) hp hpq hq1 hB5 hB6 hB1
      (by linarith)
    linarith [h]
  · have h := keyIneq p q (v.c6 + v.c7 + v.c8 + v.c9 + v.c10) (v.c7 + v.c8 + v.c9 + v.c10) (v.c1 + v.c2 + v.c3 + v.c4 + v.c5 + v.c6 + v.c7 + v.c8 + v.c9 + v.c10) (w.c6 + w.c7 + w.c8 + w.c9 + w.c10) (w.c7 + w.c8 + w.c9 + w.c10) (w.c1 + w.c2 + w.c3 + w.c4 + w.c5 + w.c6 + w.c7 + w.c8 + w.c9 + w.c10) hp hpq hq1 hB6 hB7 hB1
      (by linarith)
    linarith [h]
  · have h := keyIneq p q (v.c7 + v.c8 + v.c9 + v.c10) (v.c8 + v.c9 + v.c10) (v.c1 + v.c2 + v.c3 + v.c4 + v.c5 + v.c6 + v.c7 + v.c8 + v.c9 + v.c10) (w.c7 + w.c8 + w.c9 + w.c10) (w.c8 + w.c9 + w.c10) (w.c1 + w.c2 + w.c3 + w.c4 + w.c5 + w.c6 + w.c7 + w.c8 + w.c9 + w.c10) hp hpq hq1 hB7 hB8 hB1
      (by linarith)
    linarith [h]
  · have h := keyIneq p q (v.c8 + v.c9 + v.c10) (v.c9 + v.c10) (v.c1 + v.c2 + v.c3 + v.c4 + v.c5 + v.c6 + v.c7 + v.c8 + v.c9 + v.c10) (w.c8 + w.c9 + w.c10) (w.c9 + w.c10) (w.c1 + w.c2 + w.c3 + w.c4 + w.c5 + w.c6 + w.c7 + w.c8 + w.c9 + w.c10) hp hpq hq1 hB8 hB9 hB1
      (by linarith)
    linarith [h]
  · have h := keyIneq p q (v.c9 + v.c10) (v.c10) (v.c1 + v.c2 + v.c3 + v.c4 + v.c5 + v.c6 + v.c7 + v.c8 + v.c9 + v.c10) (w.c9 + w.c10) (w.c10) (w.c1 + w.c2 + w.c3 + w.c4 + w.c5 + w.c6 + w.c7 + w.c8 + w.c9 + w.c10) hp hpq hq1 hB9 hB10 hB1
      (by linarith)
    linarith [h]
  · have h := keyIneq p q (v.c10) (0:ℚ) (v.c1 + v.c2 + v.c3 + v.c4 + v.c5 + v.c6 + v.c7 + v.c8 + v.c9 + v.c10) (w.c10) (0:ℚ) (w.c1 + w.c2 + w.c3 + w.c4 + w.c5 + w.c6 + w.c7 + w.c8 + w.c9 + w.c10) hp hpq hq1 hB10 le_rfl hB1
      (by linarith)
    linarith [h]


theorem activeMass_nonneg {v : Capacity} (hv : NonnegCap v) :
    0 ≤ activeMass v := by
  obtain ⟨n0, n1, n2, n3, n4, n5, n6, n7, n8, n9, n10⟩ := hv
  unfold activeMass
  linarith

theorem activeMass_le {v w : Capacity} (hvw : TailLe v w) :
    activeMass v ≤ activeMass w := by
  obtain ⟨hB1, hB2, hB3, hB4, hB5, hB6, hB7, hB8, hB9, hB10⟩ := hvw
  unfold activeMass
  linarith

theorem simRun_mono {p q : ℚ} (hp : 0 ≤ p) (hpq : p ≤ q) (hq1 : q ≤ 1) :
    ∀ (n : Nat) (v w : Capacity) (t u : ℚ), NonnegCap v → NonnegCap w →
      TailLe v w → t ≤ u →
      (simRun p n (v, t)).2 ≤ (simRun q n (w, u)).2 := by
  intro n
  induction n with
  | zero => intro v w t u _ _ _ htu; exact htu
  | succ n ih =>
      intro v w t u hv hw hvw htu
      show (simRun p n (simStep p (v, t))).2 ≤ (simRun q n (simStep q (w, u))).2
      have hs1 : simStep p (v, t)
          = (rebuildCapacity p v (activeMass v * p), t + activeMass v * p) := rfl
      have hs2 : simStep q (w, u)
          = (rebuildCapacity q w (activeMass w * q), u + activeMass w * q) := rfl
      rw [hs1, hs2]
      have hactv : 0 ≤ activeMass v := activeMass_nonneg hv
      have hactw : 0 ≤ activeMass w := activeMass_nonneg hw
      have hq0 : 0 ≤ q := le_trans hp hpq
      apply ih
      · exact rebuild_nonneg hp (le_trans hpq hq1) hv (mul_nonneg hactv hp)
      · exact rebuild_nonneg hq0 hq1 hw (mul_nonneg hactw hq0)
      · exact rebuild_tailLe hp hpq hq1 hv hvw
      · have hmul : activeMass v * p ≤ activeMass w * q :=
          mul_le_mul (activeMass_le hvw) hpq hp hactw
        linarith

/-- monotonicity of the simulated size in the success probability. -/
theorem ens_mono {p q : ℚ} (hp : 0 ≤ p) (hpq : p ≤ q) (hq1 : q ≤ 1)
    (days : Nat) :
    expected_network_size p days ≤ expected_network_size q days := by
  unfold expected_network_size
  have h := simRun_mono hp hpq hq1 (days + 1) initialCapacity initialCapacity
    0 0 (by unfold NonnegCap; norm_num [initialCapacity])
    (by unfold NonnegCap; norm_num [initialCapacity])
    (by unfold TailLe; norm_num [initialCapacity]) le_rfl
  linarith

theorem simRun_eq_specRun (p : ℚ) :
    ∀ (n : Nat) (v w : Capacity) (t : ℚ),
      v.c1 = w.c1 → v.c2 = w.c2 → v.c3 = w.c3 → v.c4 = w.c4 → v.c5 = w.c5 →
      v.c6 = w.c6 → v.c7 = w.c7 → v.c8 = w.c8 → v.c9 = w.c9 → v.c10 = w.c10 →
      (simRun p n (v, t)).2 = (specRun p n (w, t)).2 := by
  intro n
  induction n with
  | zero => intros; rfl
  | succ n ih =>
      intro v w t h1 h2 h3 h4 h5 h6 h7 h8 h9 h10
      have hact : activeMass v = activeMass w := by
        unfold activeMass
        rw [h1, h2, h3, h4, h5, h6, h7, h8, h9, h10]
      show (simRun p n (simStep p (v, t))).2 = (specRun p n (specStep p (w, t))).2
      have hs1 : simStep p (v, t)
          = (rebuildCapacity p v (activeMass v * p), t + activeMass v * p) := rfl
      have hs2 : specStep p (w, t)
          = (specRebuild p w (activeMass w * p), t + activeMass w * p) := rfl
      rw [hs1, hs2, hact]
      apply ih <;>
        simp [rebuildCapacity, specRebuild, h1, h2, h3, h4, h5, h6, h7, h8, h9, h10]

theorem simRun_zero_total : ∀ (n : Nat) (st : Capacity × ℚ),
    (simRun 0 n st).2 = st.2 := by
  intro n
  induction n with
  | zero => intro st; rfl
  | succ n ih =>
      intro st
      show (simRun 0 n (simStep 0 st)).2 = st.2
      rw [ih (simStep 0 st)]
      show st.2 + activeMass st.1 * 0 = st.2
      ring

set_option maxHeartbeats 1000000 in
/-- C6: `expected_network_size` equals the reference expectation
recurrence exactly as the specification words it (days 0 through days
inclusive, successes totalled, mass redistributed, successes entering
bucket 10); in particular it is exactly 200 at (1, 0), within 1e-2 of
1139.06 at (0.5, 5) and of 740.02 at (0.1, 20), and exactly 100 at
probability 0 for every day count. -/
theorem expected_network_size_spec :
    (∀ (p : ℚ) (days : Nat),
      expected_network_size p days = specExpectedNetworkSize p days) ∧
    expected_network_size 1 0 = 200 ∧
    |expected_network_size (1/2) 5 - 113906/100| ≤ 1/100 ∧
    |expected_network_size (1/10) 20 - 74002/100| ≤ 1/100 ∧
    (∀ days : Nat, expected_network_size 0 days = 100) := by
  refine ⟨?_,
    by norm_num [expected_network_size, simRun, simStep, rebuildCapacity,
      activeMass, initialCapacity],
    by norm_num [expected_network_size, simRun, simStep, rebuildCapacity,
      activeMass, initialCapacity, abs_le],
    by norm_num [expected_network_size, simRun, simStep, rebuildCapacity,
      activeMass, initialCapacity, abs_le], ?_⟩
  · intro p days
    unfold expected_network_size specExpectedNetworkSize
    rw [simRun_eq_specRun p (days + 1) initialCapacity initialCapacity 0
      rfl rfl rfl rfl rfl rfl rfl rfl rfl rfl]
  · intro days
    unfold expected_network_size
    rw [simRun_zero_total]
    norm_num

/-- C10: for every fixed day count, `expected_network_size` is monotone
non-decreasing in the success probability on [0, 1]. -/
theorem expected_network_size_mono (days : Nat) (p1 p2 : ℚ)
    (h0 : 0 ≤ p1) (h12 : p1 ≤ p2) (h21 : p2 ≤ 1) :
    expected_network_size p1 days ≤ expected_network_size p2 days :=
  ens_mono h0 h12 h21 days

/-- C10 witness: the theorem applied at p1 = 1/2, p2 = 1, days = 3. -/
theorem expected_network_size_mono_witness :
    (0:ℚ) ≤ 1/2 ∧ (1/2:ℚ) ≤ 1 ∧
    expected_network_size (1/2) 3 ≤ expected_network_size 1 3 :=
  ⟨by norm_num, by norm_num,
    expected_network_size_mono 3 (1/2) 1 (by norm_num) (by norm_num) le_rfl⟩

/-! ## Claim C9: aliasing of the returned collections -/

theorem clearEntry_lookup_self {ch : List (String × List String)} {u : String}
    {l : List String} (h : lookupKey ch u = some l) :
    lookupKey (clearEntry ch u) u = some [] := by
  induction ch with
  | nil => exact Option.noConfusion h
  | cons p t ih =>
      obtain ⟨k, v⟩ := p
      by_cases hk : k = u
      · subst hk
        unfold clearEntry
        rw [if_pos rfl]
        exact lookupKey_cons_self
      · rw [lookupKey_cons_ne hk] at h
        unfold clearEntry
        rw [if_neg hk, lookupKey_cons_ne hk]
        exact ih h

/-- C9 counterexample: on the reachable graph with the single referral
A → B, the caller-side `clear()` of the set returned by
`direct_referrals("A")` does change the internal children index, because
`self._children.get(user, set())` returns the live stored set. -/
theorem direct_referrals_alias_counterexample :
    ¬ (stateAfterClearingDirectReferrals (buildNetwork [("A", "B")]) "A"
        = buildNetwork [("A", "B")]) := by
  decide

/-- C9 amended: `get_all_nodes` returns a snapshot copy, so caller
mutation of it never changes the graph; `direct_referrals` returns the
live internal set whenever the user is present in the children index
(i.e. has referred at least once), so caller mutation leaves the graph
unchanged exactly when the user is absent from that index. -/
theorem returned_collections_aliasing {g : ReferralNetwork} (hg : Reachable g)
    (user : String) :
    stateAfterClearingAllNodes g = g ∧
    (stateAfterClearingDirectReferrals g user = g ↔
      lookupKey g.children user = none) := by
  have hwf : WF g := wf_of_reachable hg
  refine ⟨rfl, ?_⟩
  constructor
  · intro heq
    cases hch : lookupKey g.children user with
    | none => rfl
    | some l =>
        exfalso
        have hclear : clearEntry g.children user = g.children := by
          have : stateAfterClearingDirectReferrals g user
              = { g with children := clearEntry g.children user } := by
            unfold stateAfterClearingDirectReferrals
            rw [hch]
            rfl
          rw [this] at heq
          exact congrArg ReferralNetwork.children heq
        have h1 : lookupKey (clearEntry g.children user) user = some [] :=
          clearEntry_lookup_self hch
        rw [hclear, hch] at h1
        have : l = [] := Option.some_injective _ h1
        exact hwf.cvNe (user, l) (lookupKey_mem hch) this
  · intro hnone
    unfold stateAfterClearingDirectReferrals
    rw [hnone]
    rfl

/-- C9 witness: the amended theorem applied to the chain A → B at user A
(present in the children index) -- the equivalence instantiates to the
fact that clearing does change the state there. -/
theorem returned_collections_aliasing_witness :
    stateAfterClearingAllNodes (buildNetwork [("A", "B")])
      = buildNetwork [("A", "B")] ∧
    (stateAfterClearingDirectReferrals (buildNetwork [("A", "B")]) "A"
        = buildNetwork [("A", "B")] ↔
      lookupKey (buildNetwork [("A", "B")]).children "A" = none) :=
  returned_collections_aliasing ⟨[("A", "B")], rfl⟩ "A"

/-! ## Claims C1 and C2: the bonus search -/

theorem pythonRound_bounds (x : ℚ) :
    x - 1/2 ≤ (pythonRound x : ℚ) ∧ (pythonRound x : ℚ) ≤ x + 1/2 := by
  have hf0 : 0 ≤ Int.fract x := Int.fract_nonneg x
  have hf1 : Int.fract x < 1 := Int.fract_lt_one x
  have hfr : Int.fract x = x - ⌊x⌋ := rfl
  unfold pythonRound
  split_ifs with h1 h2 h3 <;> constructor <;> push_cast <;> linarith

theorem mid_bounds {low high : ℤ} (hlow : 10 ∣ low) (hhigh : 10 ∣ high)
    (hlt : low + 10 ≤ high) :
    low ≤ pythonRound (((low : ℚ) + (high : ℚ)) / 2 / 10) * 10 ∧
    pythonRound (((low : ℚ) + (high : ℚ)) / 2 / 10) * 10 ≤ high ∧
    (10 : ℤ) ∣ pythonRound (((low : ℚ) + (high : ℚ)) / 2 / 10) * 10 := by
  obtain ⟨a, rfl⟩ := hlow
  obtain ⟨b, rfl⟩ := hhigh
  have hab : a + 1 ≤ b := by omega
  have habq : (a : ℚ) + 1 ≤ (b : ℚ) := by exact_mod_cast hab
  have hx : ((10 * a : ℤ) : ℚ) / 2 / 10 + ((10 * b : ℤ) : ℚ) / 2 / 10
      = ((a : ℚ) + b) / 2 := by push_cast; ring
  have hx' : (((10 * a : ℤ) : ℚ) + ((10 * b : ℤ) : ℚ)) / 2 / 10
      = ((a : ℚ) + b) / 2 := by push_cast; ring
  rw [hx']
  obtain ⟨hb1, hb2⟩ := pythonRound_bounds (((a : ℚ) + b) / 2)
  have hra : a ≤ pythonRound (((a : ℚ) + b) / 2) := by
    have : (a : ℚ) ≤ (pythonRound (((a : ℚ) + b) / 2) : ℚ) := by linarith
    exact_mod_cast this
  have hrb : pythonRound (((a : ℚ) + b) / 2) ≤ b := by
    have : (pythonRound (((a : ℚ) + b) / 2) : ℚ) ≤ (b : ℚ) := by linarith
    exact_mod_cast this
  refine ⟨by linarith, by linarith, ⟨pythonRound (((a : ℚ) + b) / 2), by ring⟩⟩

theorem reaches_mono {days : Nat} {target : ℚ} {ap : ℤ → ℚ}
    (hmono : Monotone ap) (hrange : ∀ b, 0 ≤ ap b ∧ ap b ≤ 1)
    {b b' : ℤ} (hbb : b ≤ b') (h : reachesTarget days target ap b) :
    reachesTarget days target ap b' := by
  unfold reachesTarget at h ⊢
  exact le_trans h (ens_mono (hrange b).1 (hmono hbb) (hrange b').2 days)

theorem phase1_succ (days : Nat) (target : ℚ) (ap : ℤ → ℚ) (fuel : Nat)
    (low high : ℤ) :
    phase1 days target ap (fuel + 1) low high =
      if reachesTarget days target ap high then some (some (low, high))
      else if 1 ≤ ap high then some none
      else phase1 days target ap fuel high (2 * high) := rfl

theorem phase2_succ (days : Nat) (target : ℚ) (ap : ℤ → ℚ) (fuel : Nat)
    (low high : ℤ) :
    phase2 days target ap (fuel + 1) low high =
      if low + BONUS_INCREMENT ≤ high then
        if reachesTarget days target ap
            (pythonRound (((low : ℚ) + (high : ℚ)) / 2 / 10) * BONUS_INCREMENT)
        then phase2 days target ap fuel low
            (pythonRound (((low : ℚ) + (high : ℚ)) / 2 / 10) * BONUS_INCREMENT)
        else phase2 days target ap fuel
            (pythonRound (((low : ℚ) + (high : ℚ)) / 2 / 10) * BONUS_INCREMENT
              + BONUS_INCREMENT) high
      else some low := rfl

theorem phase2_correct {days : Nat} {target : ℚ} {ap : ℤ → ℚ}
    (hmono : Monotone ap) (hrange : ∀ b, 0 ≤ ap b ∧ ap b ≤ 1) :
    ∀ (fuel : Nat) (low high b : ℤ),
      10 ∣ low → 10 ∣ high → low ≤ high → 0 ≤ low →
      reachesTarget days target ap high →
      (∀ m, 0 ≤ m → 10 ∣ m → m < low → ¬ reachesTarget days target ap m) →
      phase2 days target ap fuel low high = some b →
      (0 ≤ b ∧ 10 ∣ b ∧ reachesTarget days target ap b) ∧
      (∀ m, 0 ≤ m → 10 ∣ m → reachesTarget days target ap m → b ≤ m) := by
  intro fuel
  induction fuel with
  | zero =>
      intro low high b _ _ _ _ _ _ hrun
      exact Option.noConfusion hrun
  | succ fuel ih =>
      intro low high b hdl hdh hlh hl0 hreach hfail hrun
      rw [phase2_succ] at hrun
      by_cases hgap : low + BONUS_INCREMENT ≤ high
      · rw [if_pos hgap] at hrun
        have hgap' : low + 10 ≤ high := hgap
        obtain ⟨hm1, hm2, hm3⟩ := mid_bounds hdl hdh hgap'
        by_cases hmid : reachesTarget days target ap
            (pythonRound (((low : ℚ) + (high : ℚ)) / 2 / 10) * BONUS_INCREMENT)
        · rw [if_pos hmid] at hrun
          exact ih low _ b hdl hm3 hm1 hl0 hmid hfail hrun
        · rw [if_neg hmid] at hrun
          have hmidne : pythonRound (((low : ℚ) + (high : ℚ)) / 2 / 10)
              * BONUS_INCREMENT ≠ high := by
            intro heq
            rw [heq] at hmid
            exact hmid hreach
          have hmidlt : pythonRound (((low : ℚ) + (high : ℚ)) / 2 / 10)
              * BONUS_INCREMENT + BONUS_INCREMENT ≤ high := by
            show pythonRound (((low : ℚ) + (high : ℚ)) / 2 / 10) * 10 + 10 ≤ high
            obtain ⟨km, hkm⟩ := hm3
            obtain ⟨kh, hkh⟩ := hdh
            have h1 : pythonRound (((low : ℚ) + (high : ℚ)) / 2 / 10) * 10 ≤ high :=
              hm2
            have h2 : pythonRound (((low : ℚ) + (high : ℚ)) / 2 / 10) * 10 ≠ high :=
              hmidne
            omega
          have hfail' : ∀ m, 0 ≤ m → 10 ∣ m →
              m < pythonRound (((low : ℚ) + (high : ℚ)) / 2 / 10)
                * BONUS_INCREMENT + BONUS_INCREMENT →
              ¬ reachesTarget days target ap m := by
            intro m hm0 hmd hmlt hmr
            have hmle : m ≤ pythonRound (((low : ℚ) + (high : ℚ)) / 2 / 10)
                * BONUS_INCREMENT := by
              show m ≤ pythonRound (((low : ℚ) + (high : ℚ)) / 2 / 10) * 10
              have hmlt' : m < pythonRound (((low : ℚ) + (high : ℚ)) / 2 / 10)
                  * 10 + 10 := hmlt
              obtain ⟨km, hkm⟩ := hm3
              obtain ⟨kk, hkk⟩ := hmd
              omega
            exact hmid (reaches_mono hmono hrange hmle hmr)
          refine ih _ high b (by exact Dvd.dvd.add hm3 ⟨1, rfl⟩) hdh hmidlt
            (by
              show (0:ℤ) ≤
                pythonRound (((low : ℚ) + (high : ℚ)) / 2 / 10) * 10 + 10
              have h1 := hm1
              have h2 := hl0
              omega) hreach hfail' hrun
      · rw [if_neg hgap] at hrun
        have hb : b = low := by
          have := Option.some_injective _ hrun
          omega
        subst hb
        have hhl : high = b := by
          have hgap' : ¬ b + 10 ≤ high := hgap
          obtain ⟨ka, hka⟩ := hdl
          obtain ⟨kb, hkb⟩ := hdh
          omega
        refine ⟨⟨hl0, hdl, hhl ▸ hreach⟩, ?_⟩
        intro m hm0 hmd hmr
        by_contra hlt
        push_neg at hlt
        exact hfail m hm0 hmd hlt hmr

theorem phase1_correct {days : Nat} {target : ℚ} {ap : ℤ → ℚ}
    (hmono : Monotone ap) (hrange : ∀ b, 0 ≤ ap b ∧ ap b ≤ 1) :
    ∀ (fuel : Nat) (low high : ℤ) (res : Option (ℤ × ℤ)),
      10 ∣ low → 10 ∣ high → 0 ≤ low → low ≤ high → 0 < high →
      (∀ m, 0 ≤ m → 10 ∣ m → m < low → ¬ reachesTarget days target ap m) →
      phase1 days target ap fuel low high = some res →
      (res = none → expected_network_size 1 days < target) ∧
      (∀ lo hi, res = some (lo, hi) →
        10 ∣ lo ∧ 10 ∣ hi ∧ 0 ≤ lo ∧ lo ≤ hi ∧
        reachesTarget days target ap hi ∧
        (∀ m, 0 ≤ m → 10 ∣ m → m < lo → ¬ reachesTarget days target ap m)) := by
  intro fuel
  induction fuel with
  | zero =>
      intro low high res _ _ _ _ _ _ hrun
      exact Option.noConfusion hrun
  | succ fuel ih =>
      intro low high res hdl hdh hl0 hlh hh0 hfail hrun
      rw [phase1_succ] at hrun
      by_cases hreach : reachesTarget days target ap high
      · rw [if_pos hreach] at hrun
        have hres : res = some (low, high) :=
          (Option.some_injective _ hrun).symm
        subst hres
        refine ⟨fun h => Option.noConfusion h, ?_⟩
        intro lo hi heq
        cases heq
        exact ⟨hdl, hdh, hl0, hlh, hreach, hfail⟩
      · rw [if_neg hreach] at hrun
        by_cases hsat : 1 ≤ ap high
        · rw [if_pos hsat] at hrun
          have hres : res = none := (Option.some_injective _ hrun).symm
          subst hres
          refine ⟨fun _ => ?_, fun lo hi h => Option.noConfusion h⟩
          have hap1 : ap high = 1 := le_antisymm (hrange high).2 hsat
          unfold reachesTarget at hreach
          rw [hap1] at hreach
          exact lt_of_not_le hreach
        · rw [if_neg hsat] at hrun
          have hfail' : ∀ m, 0 ≤ m → 10 ∣ m → m < high →
              ¬ reachesTarget days target ap m := by
            intro m hm0 hmd hmlt hmr
            exact hreach (reaches_mono hmono hrange (by omega) hmr)
          exact ih high (2 * high) res hdh (Dvd.dvd.mul_left hdh 2) (by omega)
            (by omega) (by omega) hfail' hrun

/-- C2 amended: whenever `min_bonus_for_target` returns an integer b
(for a monotone adoption_prob into [0,1] and a positive initial_high
that is a multiple of BONUS_INCREMENT), b is the least non-negative
multiple of BONUS_INCREMENT whose simulated size reaches the target;
and whenever it returns the explicit no-result value None, even the
saturated probability 1.0 cannot reach the target.  (The converse of
the None direction fails: the search can run forever; see the
counterexample.) -/
theorem min_bonus_return_spec {days : Nat} {target : ℚ} {ap : ℤ → ℚ}
    {initial_high : ℤ}
    (hmono : Monotone ap) (hrange : ∀ b, 0 ≤ ap b ∧ ap b ≤ 1)
    (hdvd : BONUS_INCREMENT ∣ initial_high) (hpos : 0 < initial_high) :
    (∀ b, ReturnsBonus days target ap initial_high b →
      IsLeast {m : ℤ | 0 ≤ m ∧ BONUS_INCREMENT ∣ m ∧
        reachesTarget days target ap m} b) ∧
    (ReturnsNone days target ap initial_high →
      expected_network_size 1 days < target) := by
  have hdvd10 : (10 : ℤ) ∣ initial_high := hdvd
  constructor
  · rintro b ⟨fuel, hrun⟩
    unfold min_bonus_for_target at hrun
    cases hp1 : phase1 days target ap fuel 0 initial_high with
    | none => rw [hp1] at hrun; exact Option.noConfusion hrun
    | some res =>
        rw [hp1] at hrun
        cases res with
        | none =>
            exact Option.noConfusion (Option.some_injective _ hrun)
        | some lohi =>
            obtain ⟨lo, hi⟩ := lohi
            have h1 := phase1_correct hmono hrange fuel 0 initial_high
              (some (lo, hi)) ⟨0, rfl⟩ hdvd10 le_rfl (by omega) hpos
              (by intro m hm0 _ hmlt; omega) hp1
            obtain ⟨hdlo, hdhi, hlo0, hlohi, hreach, hfail⟩ :=
              h1.2 lo hi rfl
            have hrunm : (phase2 days target ap fuel lo hi).map some
                = some (some b) := hrun
            have hrun2 : phase2 days target ap fuel lo hi = some b := by
              cases hp2 : phase2 days target ap fuel lo hi with
              | none => rw [hp2] at hrunm; exact Option.noConfusion hrunm
              | some b' =>
                  rw [hp2] at hrunm
                  have hbb : some b' = some b :=
                    Option.some_injective _ hrunm
                  rw [Option.some_injective _ hbb]
            obtain ⟨⟨hb0, hbd, hbr⟩, hmin⟩ := phase2_correct hmono hrange
              fuel lo hi b hdlo hdhi hlohi hlo0 hreach hfail hrun2
            exact ⟨⟨hb0, hbd, hbr⟩, fun m hm => hmin m hm.1 hm.2.1 hm.2.2⟩
  · rintro ⟨fuel, hrun⟩
    unfold min_bonus_for_target at hrun
    cases hp1 : phase1 days target ap fuel 0 initial_high with
    | none => rw [hp1] at hrun; exact Option.noConfusion hrun
    | some res =>
        rw [hp1] at hrun
        cases res with
        | none =>
            have h1 := phase1_correct hmono hrange fuel 0 initial_high
              none ⟨0, rfl⟩ hdvd10 le_rfl (by omega) hpos
              (by intro m hm0 _ hmlt; omega) hp1
            exact h1.1 rfl
        | some lohi =>
            exfalso
            obtain ⟨lo, hi⟩ := lohi
            have hrunm : (phase2 days target ap fuel lo hi).map some
                = some none := hrun
            cases hp2 : phase2 days target ap fuel lo hi with
            | none =>
                rw [hp2] at hrunm
                exact Option.noConfusion hrunm
            | some b' =>
                rw [hp2] at hrunm
                exact Option.noConfusion (Option.some_injective _ hrunm)

/-- C2 witness: the amended theorem at the constant saturated oracle,
days = 0, target = 200, initial_high = 10. -/
theorem min_bonus_return_spec_witness :
    (∀ b, ReturnsBonus 0 200 (fun _ => (1:ℚ)) 10 b →
      IsLeast {m : ℤ | 0 ≤ m ∧ BONUS_INCREMENT ∣ m ∧
        reachesTarget 0 200 (fun _ => (1:ℚ)) m} b) ∧
    (ReturnsNone 0 200 (fun _ => (1:ℚ)) 10 →
      expected_network_size 1 0 < 200) :=
  min_bonus_return_spec monotone_const
    (fun _ => by norm_num) ⟨1, rfl⟩ (by norm_num)

theorem phase1_const_half :
    ∀ (fuel : Nat) (low high : ℤ),
      phase1 0 1000 (fun _ => (1:ℚ)/2) fuel low high = none := by
  intro fuel
  induction fuel with
  | zero => intro low high; rfl
  | succ fuel ih =>
      intro low high
      rw [phase1_succ]
      rw [if_neg (by
        unfold reachesTarget
        norm_num [expected_network_size, simRun, simStep, rebuildCapacity,
          activeMass, initialCapacity])]
      rw [if_neg (by norm_num)]
      exact ih high (2 * high)

/-- C2 counterexample: with the constant oracle 1/2 (monotone, into
[0,1]), days = 0 and target 1000, even the saturated probability 1.0
cannot reach the target, yet the call never returns None -- phase 1
doubles the bound forever, so the "exactly when" of the claim fails. -/
theorem min_bonus_none_counterexample :
    expected_network_size 1 0 < 1000 ∧
    ¬ ReturnsNone 0 1000 (fun _ => (1:ℚ)/2) 10 := by
  constructor
  · norm_num [expected_network_size, simRun, simStep, rebuildCapacity,
      activeMass, initialCapacity]
  · rintro ⟨fuel, h⟩
    have hm : min_bonus_for_target fuel 0 1000 (fun _ => (1:ℚ)/2) 10 = none := by
      unfold min_bonus_for_target
      rw [phase1_const_half]
    rw [hm] at h
    exact Option.noConfusion h

theorem stallAp_mono : Monotone stallAp := by
  intro a b hab
  unfold stallAp
  split_ifs with h1 h2 h3 h4 h5 <;> first | omega | norm_num

theorem stallAp_not_reach_10 : ¬ reachesTarget 0 200 stallAp 10 := by
  unfold reachesTarget stallAp
  norm_num [expected_network_size, simRun, simStep, rebuildCapacity,
    activeMass, initialCapacity]

theorem stallAp_reach_20 : reachesTarget 0 200 stallAp 20 := by
  unfold reachesTarget stallAp
  norm_num [expected_network_size, simRun, simStep, rebuildCapacity,
    activeMass, initialCapacity]

theorem pythonRound_three_halves : pythonRound (3/2 : ℚ) = 2 := by
  have hf : ⌊(3:ℚ)/2⌋ = 1 := Int.floor_eq_iff.mpr (by norm_num)
  have hfr : Int.fract ((3:ℚ)/2) = 1/2 := by
    unfold Int.fract
    rw [hf]
    norm_num
  unfold pythonRound
  rw [hfr, hf]
  norm_num

theorem stall_mid :
    pythonRound ((((10:ℤ) : ℚ) + ((20:ℤ) : ℚ)) / 2 / 10) * BONUS_INCREMENT
      = 20 := by
  have hx : (((10:ℤ) : ℚ) + ((20:ℤ) : ℚ)) / 2 / 10 = 3/2 := by norm_num
  rw [hx, pythonRound_three_halves]
  rfl

theorem phase2_stalls :
    ∀ fuel : Nat, phase2 0 200 stallAp fuel 10 20 = none := by
  intro fuel
  induction fuel with
  | zero => rfl
  | succ fuel ih =>
      rw [phase2_succ, stall_mid]
      rw [if_pos (by norm_num [BONUS_INCREMENT])]
      rw [if_pos stallAp_reach_20]
      exact ih

theorem stallAp_not_sat_10 : ¬ (1:ℚ) ≤ stallAp 10 := by
  norm_num [stallAp]

theorem phase1_stall_from_20 :
    ∀ fuel : Nat, phase1 0 200 stallAp (fuel + 1) 10 20
      = some (some (10, 20)) := by
  intro fuel
  rw [phase1_succ, if_pos stallAp_reach_20]

/-- C1 counterexample: at the monotone oracle `stallAp` (into [0,1]),
days = 0, target 200 and initial_high = 10 (a positive multiple of the
increment), min_bonus_for_target does not terminate: the exponential
phase hands (low, high) = (10, 20) to the binary search, whose rounded
midpoint is again 20 (Python round-half-to-even sends 1.5 to 2), which
reaches the target, so the state never changes. -/
theorem min_bonus_nontermination_counterexample :
    Monotone stallAp ∧ (∀ b, 0 ≤ stallAp b ∧ stallAp b ≤ 1) ∧
    (0:ℤ) < 10 ∧ BONUS_INCREMENT ∣ (10:ℤ) ∧
    ¬ MinBonusTerminates 0 200 stallAp 10 := by
  refine ⟨stallAp_mono, ?_, by norm_num, ⟨1, rfl⟩, ?_⟩
  · intro b
    unfold stallAp
    split_ifs <;> norm_num
  · rintro ⟨fuel, h⟩
    have hm : min_bonus_for_target fuel 0 200 stallAp 10 = none := by
      match fuel with
      | 0 => rfl
      | 1 =>
          unfold min_bonus_for_target
          rw [phase1_succ, if_neg stallAp_not_reach_10,
            if_neg stallAp_not_sat_10]
          rfl
      | (n + 2) =>
          unfold min_bonus_for_target
          rw [phase1_succ, if_neg stallAp_not_reach_10,
            if_neg stallAp_not_sat_10]
          have h20 : (2 * (10:ℤ)) = 20 := rfl
          rw [h20, phase1_stall_from_20]
          show (phase2 0 200 stallAp (n + 2) 10 20).map some = none
          rw [phase2_stalls]
          rfl
    rw [hm] at h
    exact Bool.noConfusion h

theorem phase1_terminates_aux (days : Nat) (target : ℚ) (ap : ℤ → ℚ) :
    ∀ (fuel : Nat) (low high : ℤ),
      (∃ j, j < fuel ∧
        (reachesTarget days target ap (high * 2 ^ j) ∨ 1 ≤ ap (high * 2 ^ j))) →
      (phase1 days target ap fuel low high).isSome := by
  intro fuel
  induction fuel with
  | zero =>
      rintro low high ⟨j, hj, _⟩
      omega
  | succ fuel ih =>
      rintro low high ⟨j, hj, hP⟩
      rw [phase1_succ]
      by_cases hreach : reachesTarget days target ap high
      · rw [if_pos hreach]; rfl
      · rw [if_neg hreach]
        by_cases hsat : 1 ≤ ap high
        · rw [if_pos hsat]; rfl
        · rw [if_neg hsat]
          cases j with
          | zero =>
              rw [pow_zero, mul_one] at hP
              rcases hP with hP | hP
              · exact absurd hP hreach
              · exact absurd hP hsat
          | succ j' =>
              refine ih high (2 * high) ⟨j', by omega, ?_⟩
              rw [show 2 * high * 2 ^ j' = high * 2 ^ (j' + 1) by ring]
              exact hP

/-- C1 amended: provided some bonus B either reaches the target or
saturates the probability (1 ≤ adoption_prob(B)), the exponential phase
terminates -- it reaches a succeeding high or a saturated failing high
after finitely many doublings.  Unconditional termination of the whole
search is false (see the counterexample): without such a B the
exponential phase runs forever, and even with it the binary-search
phase can stall forever at a one-increment gap. -/
theorem exponential_phase_terminates {days : Nat} {target : ℚ} {ap : ℤ → ℚ}
    {initial_high : ℤ}
    (hmono : Monotone ap) (hrange : ∀ b, 0 ≤ ap b ∧ ap b ≤ 1)
    (hpos : 0 < initial_high)
    (hex : ∃ B, reachesTarget days target ap B ∨ 1 ≤ ap B) :
    ∃ fuel, (phase1 days target ap fuel 0 initial_high).isSome := by
  obtain ⟨B, hB⟩ := hex
  have hle : B ≤ initial_high * 2 ^ B.toNat := by
    have h1 : B ≤ (B.toNat : ℤ) := Int.self_le_toNat B
    have h2 : (B.toNat : ℤ) < 2 ^ B.toNat := by
      have := Nat.lt_two_pow B.toNat
      exact_mod_cast this
    have h3 : (2:ℤ) ^ B.toNat ≤ initial_high * 2 ^ B.toNat := by
      have hp : (0:ℤ) < 2 ^ B.toNat := by positivity
      nlinarith
    omega
  refine ⟨B.toNat + 1, phase1_terminates_aux days target ap (B.toNat + 1) 0
    initial_high ⟨B.toNat, by omega, ?_⟩⟩
  rcases hB with hB | hB
  · exact Or.inl (reaches_mono hmono hrange hle hB)
  · exact Or.inr (le_trans hB (hmono hle))

/-- C1 witness: the amended theorem at the constant oracle 1/2 with
days = 0, target 150 (reached already at bonus 0) and initial_high 10. -/
theorem exponential_phase_terminates_witness :
    ∃ fuel, (phase1 0 150 (fun _ => (1:ℚ)/2) fuel 0 10).isSome :=
  exponential_phase_terminates monotone_const (fun _ => by norm_num)
    (by norm_num)
    ⟨0, Or.inl (by
      unfold reachesTarget
      norm_num [expected_network_size, simRun, simStep, rebuildCapacity,
        activeMass, initialCapacity])⟩
